import Mathlib

/-!
Verification of the skip-list container implemented in `src/lib/skip.cpp`.

The C++ code is embedded shallowly with an explicit heap: every
`make_shared<Node>` allocation appends a node to a list, and the
`shared_ptr` links `down` / `right` become optional indices into that
list.  Loops of the source become fueled recursions returning `Option`;
`none` models either fuel exhaustion (impossible in reachable states,
which is proved), a failed `check(...)` assertion (the source throws),
or a dereference of an empty `optional` (undefined behaviour in the
source).  The randomized `chose_level()` result is an explicit argument
of `add`, so all theorems quantify over every assignment of
per-insertion heights, exactly as the specification demands.
-/

namespace Skip

/-- Mirror of `struct Node`: an optional stored value (absent for
sentinels) and the `down` / `right` links, as heap indices. -/
structure Node where
  value : Option Int
  down : Option Nat
  right : Option Nat
deriving DecidableEq

/-- Mirror of `class SkipList`: the allocation store plus the index of
the top-of-head-column node `head_`. -/
structure SkipState where
  heap : List Node
  head : Nat
deriving DecidableEq

/-- Mirror of the default constructor: one sentinel node, `head_`
pointing at it. -/
def emptyState : SkipState := ⟨[⟨none, none, none⟩], 0⟩

/-- Fuel bound used by every loop of the embedding: one more than the
number of allocations ever made, which bounds the length of every
pointer chain in a well-formed list. -/
def fuelOf (s : SkipState) : Nat := s.heap.length + 1

/-- In-place update of the `right` field of the node at index `i`,
mirroring `p->right = r`. -/
def setRight : List Node → Nat → Option Nat → List Node
  | [], _, _ => []
  | n :: rest, 0, r => ⟨n.value, n.down, r⟩ :: rest
  | n :: rest, i + 1, r => n :: setRight rest i r

/-- Mirror of `SkipList::height`: start at `head_` with count 1 and
follow `down` links, counting. -/
def heightAux (heap : List Node) : Nat → Nat → Option Nat
  | 0, _ => none
  | f + 1, cur =>
    match heap[cur]? with
    | none => none
    | some n =>
      match n.down with
      | none => some 1
      | some d => (heightAux heap f d).map (· + 1)

/-- Mirror of `SkipList::height` applied to the current state. -/
def height (s : SkipState) : Option Nat := heightAux s.heap (fuelOf s) s.head

/-- Mirror of the inner `while` of `SkipList::traverse`: from node
`pre`, advance right while the next node's value is `< v`; return the
final `(pre, cur)` pair.  Dereferencing a valueless node is a failure. -/
def walkRight (heap : List Node) (v : Int) : Nat → Nat → Option (Nat × Option Nat)
  | 0, _ => none
  | f + 1, pre =>
    match heap[pre]? with
    | none => none
    | some pn =>
      match pn.right with
      | none => some (pre, none)
      | some cur =>
        match heap[cur]? with
        | none => none
        | some cn =>
          match cn.value with
          | none => none
          | some cv => if cv < v then walkRight heap v f cur else some (pre, some cur)

/-- Mirror of the outer `while (pre != nullptr)` loop of
`SkipList::traverse`: at each iteration run the rightward walk, record
`tracked[level] = (pre, cur)`, then descend via `pre->down` and
decrement the level counter.  The accumulator is prepended to, so the
final list is in ascending level order — the iteration order of the
`std::map` used by the source.  Returns the tracked list together with
the final value of the level counter. -/
def traverseAux (heap : List Node) (W : Nat) (v : Int) :
    Nat → Option Nat → Int → List (Int × Nat × Option Nat) →
    Option (List (Int × Nat × Option Nat) × Int)
  | _, none, level, acc => some (acc, level)
  | 0, some _, _, _ => none
  | f + 1, some pre, level, acc =>
    match walkRight heap v W pre with
    | none => none
    | some (p, c) =>
      match heap[p]? with
      | none => none
      | some pn => traverseAux heap W v f pn.down (level - 1) ((level, p, c) :: acc)

/-- Mirror of `SkipList::traverse` up to (but not including) its two
`check` assertions: compute `height() - 1`, run the outer loop from
`head_`, and return the tracked pairs plus the final level counter.
The first assertion `check(pre == nullptr)` is true by the loop's exit
condition; the second, `check(level == -1)`, is applied in `traverse`
below. -/
def traverseRaw (s : SkipState) (v : Int) :
    Option (List (Int × Nat × Option Nat) × Int) :=
  match height s with
  | none => none
  | some h => traverseAux s.heap (fuelOf s) v (fuelOf s) (some s.head) ((h : Int) - 1) []

/-- Mirror of `SkipList::traverse` including the final
`check(level == -1)` assertion (a throw, modelled as `none`). -/
def traverse (s : SkipState) (v : Int) : Option (List (Int × Nat × Option Nat)) :=
  match traverseRaw s v with
  | none => none
  | some (tr, level) => if level = -1 then some tr else none

/-- Mirror of the growth loop of `ensure_height` inside
`SkipList::add`: push `n` fresh top sentinels, each with `down` set to
the previous `head_`. -/
def growHead : SkipState → Nat → SkipState
  | s, 0 => s
  | s, n + 1 => growHead ⟨s.heap ++ [⟨none, some s.head, none⟩], s.heap.length⟩ n

/-- Mirror of the splicing loop of `SkipList::add`: for
`idx = 0, 1, ...` (`rem` levels remaining), look up
`tracked.at(idx)` (a missing key throws, modelled as `none`), allocate
`Node(value, down, nex)` and set `pre->right` to it. -/
def spliceLoop (v : Int) (tracked : List (Int × Nat × Option Nat)) :
    SkipState → Nat → Nat → Option Nat → Option SkipState
  | s, _, 0, _ => some s
  | s, idx, rem + 1, down =>
    match List.lookup (idx : Int) tracked with
    | none => none
    | some (pre, nex) =>
      let nodeIdx := s.heap.length
      spliceLoop v tracked
        ⟨setRight (s.heap ++ [⟨some v, down, nex⟩]) pre (some nodeIdx), s.head⟩
        (idx + 1) rem (some nodeIdx)

/-- Mirror of `SkipList::add` with the result of `chose_level()` passed
in explicitly (`half = chosen + 1`): check `expected > 0`, grow the
head column if needed, traverse, then splice one new node per level
`0 .. half-1`, threading the `down` link. -/
def add (s : SkipState) (v : Int) (chosen : Nat) : Option SkipState :=
  let half := chosen + 1
  if 0 < half then
    match height s with
    | none => none
    | some current =>
      let s1 := if half ≤ current then s else growHead s (half - current)
      match traverse s1 v with
      | none => none
      | some tracked => spliceLoop v tracked s1 0 half none
  else none

/-- Mirror of `SkipList::find`: traverse, read `tracked.at(0)`, and
return `cur != nullptr && *cur->value == value`. -/
def find (s : SkipState) (v : Int) : Option Bool :=
  match traverse s v with
  | none => none
  | some tracked =>
    match List.lookup (0 : Int) tracked with
    | none => none
    | some (_, none) => some false
    | some (_, some c) =>
      match s.heap[c]? with
      | none => none
      | some cn =>
        match cn.value with
        | none => none
        | some w => some (w = v)

/-- Result type of `remove`: the source throws `"no such value"` for a
missing value (`notFound`); otherwise it mutates the container. -/
inductive RemoveResult where
  | notFound
  | ok (s : SkipState)
deriving DecidableEq

/-- Mirror of the unlink loop of `SkipList::remove`: iterate over the
tracked pairs in ascending level order; wherever the recorded successor
exists and carries the removed value, set `pre->right = cur->right`
(reading `cur->right` from the current heap). -/
def unlinkLoop (v : Int) : SkipState → List (Int × Nat × Option Nat) → Option SkipState
  | s, [] => some s
  | s, (_, _, none) :: rest => unlinkLoop v s rest
  | s, (_, pre, some c) :: rest =>
    match s.heap[c]? with
    | none => none
    | some cn =>
      match cn.value with
      | none => none
      | some w =>
        if w = v then unlinkLoop v ⟨setRight s.heap pre cn.right, s.head⟩ rest
        else unlinkLoop v s rest

/-- Mirror of `clean_head` inside `SkipList::remove`: pop the top
sentinel while it has no `right` neighbour and a level remains below. -/
def cleanHead (heap : List Node) : Nat → Nat → Option Nat
  | 0, _ => none
  | f + 1, h =>
    match heap[h]? with
    | none => none
    | some n =>
      match n.right, n.down with
      | none, some d => cleanHead heap f d
      | _, _ => some h

/-- Mirror of `SkipList::remove`: traverse, fail with `notFound` when
the level-0 successor is absent or holds a different value, otherwise
unlink per level and shrink the head column. -/
def remove (s : SkipState) (v : Int) : Option RemoveResult :=
  match traverse s v with
  | none => none
  | some tracked =>
    match List.lookup (0 : Int) tracked with
    | none => none
    | some (_, none) => some .notFound
    | some (_, some c) =>
      match s.heap[c]? with
      | none => none
      | some cn =>
        match cn.value with
        | none => none
        | some w =>
          if w = v then
            match unlinkLoop v s tracked with
            | none => none
            | some s1 =>
              match cleanHead s1.heap (fuelOf s1) s1.head with
              | none => none
              | some h => some (.ok ⟨s1.heap, h⟩)
          else some .notFound

/-- Mirror of the descent at the start of `SkipList::iter`: follow
`down` links from `head_` to the bottom sentinel. -/
def descend (heap : List Node) : Nat → Nat → Option Nat
  | 0, _ => none
  | f + 1, cur =>
    match heap[cur]? with
    | none => none
    | some n =>
      match n.down with
      | none => some cur
      | some d => descend heap f d

/-- Mirror of the yielding loop of `SkipList::iter`: walk `right` from
a start link, collecting `*cur->value` for every node visited. -/
def collectRight (heap : List Node) : Nat → Option Nat → Option (List Int)
  | 0, _ => none
  | _ + 1, none => some []
  | f + 1, some c =>
    match heap[c]? with
    | none => none
    | some n =>
      match n.value with
      | none => none
      | some w => (collectRight heap f n.right).map (w :: ·)

/-- Mirror of `SkipList::iter`: the full (finite) sequence the
generator yields — descend the head column, then walk the bottom
level. -/
def iter (s : SkipState) : Option (List Int) :=
  match descend s.heap (fuelOf s) s.head with
  | none => none
  | some row =>
    match s.heap[row]? with
    | none => none
    | some rn => collectRight s.heap (fuelOf s) rn.right

/-- The variant of `collectRight` that records node indices rather than
values; used to state structural facts about node placement. -/
def collectIdxs (heap : List Node) : Nat → Option Nat → Option (List Nat)
  | 0, _ => none
  | _ + 1, none => some []
  | f + 1, some c =>
    match heap[c]? with
    | none => none
    | some n => (collectIdxs heap f n.right).map (c :: ·)

/-- The sequence of node indices on level 0 (the bottom list), in list
order. -/
def level0Idxs (s : SkipState) : Option (List Nat) :=
  match descend s.heap (fuelOf s) s.head with
  | none => none
  | some row =>
    match s.heap[row]? with
    | none => none
    | some rn => collectIdxs s.heap (fuelOf s) rn.right

/-- A public operation on the container: `add` with its randomized
level choice made explicit, or `remove`. -/
inductive Op where
  | add (v : Int) (chosen : Nat)
  | remove (v : Int)
deriving DecidableEq

/-- Run a sequence of operations, also logging the value of every
`remove` call that succeeded.  A `notFound` failure is caught by the
driver (the container is untouched); a `none` is a model failure and
aborts. -/
def runLog : SkipState → List Op → Option (SkipState × List Int)
  | s, [] => some (s, [])
  | s, Op.add v ch :: rest =>
    match add s v ch with
    | none => none
    | some s' => runLog s' rest
  | s, Op.remove v :: rest =>
    match remove s v with
    | none => none
    | some .notFound => runLog s rest
    | some (.ok s') => (runLog s' rest).map (fun t => (t.1, v :: t.2))

/-- Run a sequence of operations, keeping only the final state. -/
def run (s : SkipState) (ops : List Op) : Option SkipState :=
  (runLog s ops).map (·.1)

/-- The multiset-of-adds bookkeeping: all values passed to `add` in a
sequence of operations. -/
def addedValues : List Op → List Int
  | [] => []
  | Op.add v _ :: rest => v :: addedValues rest
  | Op.remove _ :: rest => addedValues rest

/-- A state is reachable when some operation sequence produces it from
the empty container. -/
def reachable (s : SkipState) : Prop := ∃ ops, run emptyState ops = some s

/-- Mirror of the range constructor `SkipList(R&& items)`: start from
the default-constructed state and `add` each item in sequence order
(with its injected level choice). -/
def ofSeqAux : SkipState → List (Int × Nat) → Option SkipState
  | s, [] => some s
  | s, (v, ch) :: rest =>
    match add s v ch with
    | none => none
    | some s' => ofSeqAux s' rest

/-- Mirror of the range constructor, from the default-constructed
state. -/
def ofSeq (items : List (Int × Nat)) : Option SkipState :=
  ofSeqAux emptyState items

/-- Iterated `remove` of the same value, all calls required to
succeed. -/
def removeN (v : Int) : SkipState → Nat → Option SkipState
  | s, 0 => some s
  | s, n + 1 =>
    match remove s v with
    | some (.ok s') => removeN v s' n
    | _ => none

/-- Nodes reachable from `head_` by following `down` and `right`
links — the pointer-reachability used by every public operation. -/
inductive ReachNode (s : SkipState) : Nat → Prop where
  | head : ReachNode s s.head
  | down {p q : Nat} {n : Node} :
      ReachNode s p → s.heap[p]? = some n → n.down = some q → ReachNode s q
  | right {p q : Nat} {n : Node} :
      ReachNode s p → s.heap[p]? = some n → n.right = some q → ReachNode s q

/-!  ## Abstraction: shapes

A `Shape` names the live nodes of a well-formed skip list: the head
column's sentinel indices (bottom-up) and, in bottom-level order, each
stored entry as its value together with the indices of its per-level
node copies (bottom-up).  `Models s sh` says state `s` is exactly the
pointer structure described by `sh`. -/

/-- The live-node description of a skip-list state: sentinel indices of
the head column (bottom-up) and the entries in bottom-level order, each
with the heap indices of its per-level copies (bottom-up). -/
structure Shape where
  sents : List Nat
  cols : List (Int × List Nat)
deriving DecidableEq

/-- The node indices present on level `k`, in level order: one node
per entry whose column still reaches level `k`. -/
def levelNodes (cols : List (Int × List Nat)) (k : Nat) : List Nat :=
  cols.filterMap (fun c => c.2[k]?)

/-- `chainB heap start l` : following `right` links from `start` visits
exactly the indices of `l` and then ends. -/
def chainB (heap : List Node) : Option Nat → List Nat → Bool
  | none, [] => true
  | none, _ :: _ => false
  | some _, [] => false
  | some i, j :: rest =>
    i = j &&
      match heap[i]? with
      | some n => chainB heap n.right rest
      | none => false

/-- `columnOkB heap v below ns` : the indices of `ns` (bottom-up) all
hold value `v`, and their `down` links chain bottom-up starting at
`below`. -/
def columnOkB (heap : List Node) (v : Option Int) : Option Nat → List Nat → Bool
  | _, [] => true
  | below, i :: rest =>
    match heap[i]? with
    | some n => n.value = v && n.down = below && columnOkB heap v (some i) rest
    | none => false

/-- Level `k` is anchored: the sentinel of level `k` exists and its
`right` chain is exactly the level-`k` node list. -/
def levelOkB (heap : List Node) (sents : List Nat) (cols : List (Int × List Nat))
    (k : Nat) : Bool :=
  match sents[k]? with
  | none => false
  | some sk =>
    match heap[sk]? with
    | none => false
    | some n => chainB heap n.right (levelNodes cols k)

/-- The maximum column height among the entries (0 when empty). -/
def maxHt (cols : List (Int × List Nat)) : Nat :=
  (cols.map (·.2.length)).foldr max 0

/-- Structural part of the abstraction relation (everything except the
head-column tightness equation, which is temporarily broken while `add`
grows the head column). -/
def ModelsW (s : SkipState) (sh : Shape) : Prop :=
  sh.sents.getLast? = some s.head ∧
  columnOkB s.heap none none sh.sents = true ∧
  (∀ c ∈ sh.cols, c.2 ≠ [] ∧ columnOkB s.heap (some c.1) none c.2 = true) ∧
  (∀ k < sh.sents.length, levelOkB s.heap sh.sents sh.cols k = true) ∧
  (∀ c ∈ sh.cols, c.2.length ≤ sh.sents.length) ∧
  (sh.sents ++ sh.cols.flatMap (·.2)).Nodup ∧
  List.Pairwise (· ≤ ·) (sh.cols.map (·.1))

/-- The abstraction relation: `s` is the pointer structure described by
`sh`, and the head column is exactly as tall as the tallest entry
(at least one sentinel). -/
def Models (s : SkipState) (sh : Shape) : Prop :=
  ModelsW s sh ∧ sh.sents.length = max 1 (maxHt sh.cols)

/-- The entries strictly below the searched value, in level-0 order. -/
def ltOf (cols : List (Int × List Nat)) (v : Int) : List (Int × List Nat) :=
  cols.takeWhile (fun c => decide (c.1 < v))

/-- The entries at or above the searched value, in level-0 order. -/
def geOf (cols : List (Int × List Nat)) (v : Int) : List (Int × List Nat) :=
  cols.dropWhile (fun c => decide (c.1 < v))

/-- The sentinel index of level `k` (default 0 out of range). -/
def sentAt (sents : List Nat) (k : Nat) : Nat := (sents[k]?).getD 0

/-- The predecessor node `traverse` records on level `k`: the last
level-`k` node strictly below `v`, or the level-`k` sentinel. -/
def preD (sents : List Nat) (cols : List (Int × List Nat)) (v : Int) (k : Nat) : Nat :=
  (levelNodes (ltOf cols v) k).getLastD (sentAt sents k)

/-- The successor node `traverse` records on level `k`: the first
level-`k` node at or above `v`, if any. -/
def curD (cols : List (Int × List Nat)) (v : Int) (k : Nat) : Option Nat :=
  (levelNodes (geOf cols v) k).head?

/-- The tracked list `traverse` returns, described at the shape level:
one `(level, pre, cur)` triple per level, ascending. -/
def expTracked (sents : List Nat) (cols : List (Int × List Nat)) (v : Int) :
    List (Int × Nat × Option Nat) :=
  (List.range sents.length).map (fun (k : Nat) => ((k : Int), preD sents cols v k, curD cols v k))

/-!  ## Basic heap lemmas -/

theorem setRight_length (heap : List Node) (i : Nat) (r : Option Nat) :
    (setRight heap i r).length = heap.length := by
  induction heap generalizing i with
  | nil => rfl
  | cons n rest ih => cases i with
    | zero => rfl
    | succ j => simpa [setRight] using ih j

theorem getElem?_setRight_ne (heap : List Node) (i j : Nat) (r : Option Nat)
    (h : i ≠ j) : (setRight heap i r)[j]? = heap[j]? := by
  induction heap generalizing i j with
  | nil => rfl
  | cons n rest ih =>
    cases i with
    | zero => cases j with
      | zero => exact absurd rfl h
      | succ j' => simp [setRight]
    | succ i' => cases j with
      | zero => simp [setRight]
      | succ j' =>
        simp only [setRight, List.getElem?_cons_succ]
        exact ih i' j' (fun he => h (by rw [he]))

theorem getElem?_setRight_self (heap : List Node) (i : Nat) (r : Option Nat)
    (n : Node) (h : heap[i]? = some n) :
    (setRight heap i r)[i]? = some ⟨n.value, n.down, r⟩ := by
  induction heap generalizing i with
  | nil => simp at h
  | cons m rest ih =>
    cases i with
    | zero => simp_all [setRight]
    | succ i' =>
      simp only [List.getElem?_cons_succ] at h
      simpa [setRight] using ih i' h

theorem getElem?_append_left' {α : Type} (l₁ l₂ : List α) (i : Nat) (h : i < l₁.length) :
    (l₁ ++ l₂)[i]? = l₁[i]? := by
  rw [List.getElem?_append]
  simp [h]

theorem lt_length_of_getElem? {α : Type} {l : List α} {i : Nat} {a : α}
    (h : l[i]? = some a) : i < l.length :=
  (List.getElem?_eq_some.mp h).1

/-!  ## `chainB` lemmas -/

theorem chainB_none_iff (heap : List Node) (l : List Nat) :
    chainB heap none l = true ↔ l = [] := by
  cases l <;> simp [chainB]

theorem chainB_some_cons (heap : List Node) (i j : Nat) (rest : List Nat) :
    chainB heap (some i) (j :: rest) = true ↔
      i = j ∧ ∃ n, heap[i]? = some n ∧ chainB heap n.right rest = true := by
  constructor
  · intro h
    simp only [chainB, Bool.and_eq_true, decide_eq_true_eq] at h
    refine ⟨h.1, ?_⟩
    rcases hn : heap[i]? with _ | n
    · rw [hn] at h; exact absurd h.2 (by simp)
    · rw [hn] at h; exact ⟨n, rfl, h.2⟩
  · rintro ⟨rfl, n, hn, hc⟩
    simp [chainB, hn, hc]

theorem chainB_some_nil (heap : List Node) (i : Nat) :
    chainB heap (some i) [] = false := rfl

theorem chainB_mem_node (heap : List Node) :
    ∀ (l : List Nat) (r : Option Nat), chainB heap r l = true →
      ∀ i ∈ l, ∃ n, heap[i]? = some n := by
  intro l
  induction l with
  | nil => intro r _ i hi; simp at hi
  | cons j rest ih =>
    intro r hc i hi
    cases r with
    | none => simp [chainB] at hc
    | some j' =>
      obtain ⟨rfl, n, hn, hrest⟩ := (chainB_some_cons heap j' j rest).mp hc
      rcases List.mem_cons.mp hi with rfl | hi'
      · exact ⟨n, hn⟩
      · exact ih n.right hrest i hi'

theorem chainB_congr (heap heap' : List Node) :
    ∀ (l : List Nat) (r : Option Nat), (∀ j ∈ l, heap'[j]? = heap[j]?) →
      chainB heap' r l = chainB heap r l := by
  intro l
  induction l with
  | nil => intro r _; cases r <;> rfl
  | cons j rest ih =>
    intro r hag
    cases r with
    | none => rfl
    | some i =>
      simp only [chainB]
      rcases Decidable.em (i = j) with rfl | hne
      · rw [hag i (List.mem_cons_self i rest)]
        cases hn : heap[i]? with
        | none => rfl
        | some n =>
          have := ih n.right (fun x hx => hag x (List.mem_cons_of_mem i hx))
          simp [this]
      · simp [hne]

/-- Walk a chain to the last node of a prefix: the node there continues
with the remaining suffix. -/
theorem chainB_after (heap : List Node) :
    ∀ (xs : List Nat) (d : Nat) (dn : Node) (ys : List Nat),
      heap[d]? = some dn → chainB heap dn.right (xs ++ ys) = true →
      ∃ pn, heap[xs.getLastD d]? = some pn ∧ chainB heap pn.right ys = true := by
  intro xs
  induction xs with
  | nil => intro d dn ys hd hc; exact ⟨dn, hd, hc⟩
  | cons x xs' ih =>
    intro d dn ys hd hc
    rcases hr : dn.right with _ | i
    · rw [hr] at hc; simp [chainB] at hc
    · rw [hr] at hc
      obtain ⟨rfl, n, hn, hrest⟩ := (chainB_some_cons heap i x (xs' ++ ys)).mp hc
      have := ih i n ys hn hrest
      rw [List.getLastD_cons]
      exact this

/-- Each chain member's `right` link is `none` or stays within the
chain. -/
theorem chainB_right_closed (heap : List Node) :
    ∀ (l : List Nat) (r : Option Nat), chainB heap r l = true →
      ∀ i ∈ l, ∀ n, heap[i]? = some n →
        n.right = none ∨ ∃ q ∈ l, n.right = some q := by
  intro l
  induction l with
  | nil => intro r _ i hi; simp at hi
  | cons j rest ih =>
    intro r hc i hi n hn
    cases r with
    | none => simp [chainB] at hc
    | some j' =>
      obtain ⟨rfl, m, hm, hrest⟩ := (chainB_some_cons heap j' j rest).mp hc
      rcases List.mem_cons.mp hi with rfl | hi'
      · rw [hn] at hm
        cases hm
        cases rest with
        | nil =>
          rcases hr : n.right with _ | q
          · exact Or.inl rfl
          · rw [hr] at hrest; simp [chainB] at hrest
        | cons y ys =>
          rcases hr : n.right with _ | q
          · rw [hr] at hrest; simp [chainB] at hrest
          · rw [hr] at hrest
            obtain ⟨rfl, _⟩ := (chainB_some_cons heap q y ys).mp hrest
            exact Or.inr ⟨q, by simp, rfl⟩
      · rcases ih m.right hrest i hi' n hn with h | ⟨q, hq, hq'⟩
        · exact Or.inl h
        · exact Or.inr ⟨q, List.mem_cons_of_mem _ hq, hq'⟩

/-!  ## `columnOkB` lemmas -/

theorem columnOkB_mem_node (heap : List Node) (v : Option Int) :
    ∀ (ns : List Nat) (below : Option Nat), columnOkB heap v below ns = true →
      ∀ i ∈ ns, ∃ n, heap[i]? = some n ∧ n.value = v := by
  intro ns
  induction ns with
  | nil => intro below _ i hi; simp at hi
  | cons j rest ih =>
    intro below hc i hi
    simp only [columnOkB] at hc
    rcases hn : heap[j]? with _ | n
    · rw [hn] at hc; simp at hc
    · rw [hn] at hc
      simp only [Bool.and_eq_true, decide_eq_true_eq] at hc
      rcases List.mem_cons.mp hi with rfl | hi'
      · exact ⟨n, hn, hc.1.1⟩
      · exact ih (some j) hc.2 i hi'

theorem columnOkB_congr (heap heap' : List Node) (v : Option Int) :
    ∀ (ns : List Nat) (below : Option Nat), (∀ j ∈ ns, heap'[j]? = heap[j]?) →
      columnOkB heap' v below ns = columnOkB heap v below ns := by
  intro ns
  induction ns with
  | nil => intro below _; rfl
  | cons j rest ih =>
    intro below hag
    simp only [columnOkB]
    rw [hag j (List.mem_cons_self j rest)]
    cases heap[j]? with
    | none => rfl
    | some n =>
      have := ih (some j) (fun x hx => hag x (List.mem_cons_of_mem j hx))
      simp [this]

/-- Index lookup inside a column: the `k`-th node holds the value and
its `down` link is the `(k-1)`-th node (or the column's base). -/
theorem columnOkB_getElem (heap : List Node) (v : Option Int) :
    ∀ (ns : List Nat) (below : Option Nat), columnOkB heap v below ns = true →
      ∀ (k : Nat) (i : Nat), ns[k]? = some i →
        ∃ n, heap[i]? = some n ∧ n.value = v ∧
          n.down = (if k = 0 then below else ns[k - 1]?) := by
  intro ns
  induction ns with
  | nil => intro below _ k i hi; simp at hi
  | cons j rest ih =>
    intro below hc k i hi
    simp only [columnOkB] at hc
    rcases hn : heap[j]? with _ | n
    · rw [hn] at hc; simp at hc
    · rw [hn] at hc
      simp only [Bool.and_eq_true, decide_eq_true_eq] at hc
      cases k with
      | zero =>
        simp only [List.getElem?_cons_zero, Option.some_inj] at hi
        subst hi
        exact ⟨n, hn, hc.1.1, by simp [hc.1.2]⟩
      | succ k' =>
        simp only [List.getElem?_cons_succ] at hi
        have := ih (some j) hc.2 k' i hi
        obtain ⟨m, hm, hmv, hmd⟩ := this
        refine ⟨m, hm, hmv, ?_⟩
        cases k' with
        | zero => simpa using hmd
        | succ k'' => simpa using hmd

/-!  ## Facts derived from the abstraction relation -/

theorem getLastD_eq_getLast?_getD {α : Type} (l : List α) (d : α) :
    l.getLastD d = l.getLast?.getD d := by
  cases l with
  | nil => rfl
  | cons a l' =>
    rw [List.getLastD_cons]
    induction l' generalizing a with
    | nil => rfl
    | cons b l'' ih =>
      rw [List.getLastD_cons, ih, List.getLast?_cons_cons]

theorem nodup_bounded_length (l : List Nat) (N : Nat) (h : l.Nodup)
    (hb : ∀ i ∈ l, i < N) : l.length ≤ N := by
  have h1 : l.toFinset.card = l.length := List.toFinset_card_of_nodup h
  have h2 : l.toFinset ⊆ Finset.range N := by
    intro x hx
    simp only [List.mem_toFinset] at hx
    simpa using hb x hx
  have := Finset.card_le_card h2
  rw [h1, Finset.card_range] at this
  exact this

theorem levelNodes_sublist (k : Nat) :
    ∀ (cols : List (Int × List Nat)),
      List.Sublist (levelNodes cols k) (cols.flatMap (·.2)) := by
  intro cols
  induction cols with
  | nil => simp [levelNodes]
  | cons c rest ih =>
    simp only [levelNodes, List.filterMap_cons, List.flatMap_cons]
    rcases h : c.2[k]? with _ | x
    · exact List.Sublist.trans ih (List.sublist_append_right c.2 _)
    · exact List.Sublist.append
        (List.singleton_sublist.mpr (by
          have := (List.getElem?_eq_some.mp h)
          obtain ⟨hlt, he⟩ := this
          exact he ▸ List.getElem_mem hlt)) ih

theorem mem_flatMap_of_col {cols : List (Int × List Nat)} {c : Int × List Nat}
    (hc : c ∈ cols) {i : Nat} (hi : i ∈ c.2) : i ∈ cols.flatMap (·.2) :=
  List.mem_flatMap.mpr ⟨c, hc, hi⟩

/-- Every sentinel index carries a valueless node whose `down` link is
the sentinel below (none at the bottom). -/
theorem sent_node {s : SkipState} {sh : Shape} (h : ModelsW s sh) :
    ∀ (k : Nat) (sk : Nat), sh.sents[k]? = some sk →
      ∃ n, s.heap[sk]? = some n ∧ n.value = none ∧
        n.down = (if k = 0 then none else sh.sents[k - 1]?) := by
  intro k sk hk
  obtain ⟨n, hn, hv, hd⟩ := columnOkB_getElem s.heap none sh.sents none h.2.1 k sk hk
  exact ⟨n, hn, hv, hd⟩

/-- Every column index of an entry carries a node holding the entry's
value, `down`-linked to the copy below. -/
theorem col_node {s : SkipState} {sh : Shape} (h : ModelsW s sh)
    {c : Int × List Nat} (hc : c ∈ sh.cols) :
    ∀ (k : Nat) (i : Nat), c.2[k]? = some i →
      ∃ n, s.heap[i]? = some n ∧ n.value = some c.1 ∧
        n.down = (if k = 0 then none else c.2[k - 1]?) := by
  intro k i hk
  exact columnOkB_getElem s.heap (some c.1) c.2 none ((h.2.2.1 c hc).2) k i hk

/-- All live indices point into the heap. -/
theorem live_bounded {s : SkipState} {sh : Shape} (h : ModelsW s sh) :
    ∀ i ∈ sh.sents ++ sh.cols.flatMap (·.2), i < s.heap.length := by
  intro i hi
  rcases List.mem_append.mp hi with hi | hi
  · obtain ⟨n, hn, _⟩ := columnOkB_mem_node s.heap none sh.sents none h.2.1 i hi
    exact lt_length_of_getElem? hn
  · obtain ⟨c, hc, hic⟩ := List.mem_flatMap.mp hi
    obtain ⟨n, hn, _⟩ := columnOkB_mem_node s.heap (some c.1) c.2 none
      ((h.2.2.1 c hc).2) i hic
    exact lt_length_of_getElem? hn

theorem sents_length_le {s : SkipState} {sh : Shape} (h : ModelsW s sh) :
    sh.sents.length ≤ s.heap.length := by
  have hnd : sh.sents.Nodup := (List.nodup_append.mp h.2.2.2.2.2.1).1
  exact nodup_bounded_length sh.sents s.heap.length hnd
    (fun i hi => live_bounded h i (List.mem_append.mpr (Or.inl hi)))

theorem sublist_flatMap_of_sublist {α β : Type} (f : α → List β) :
    ∀ {l₁ l₂ : List α}, List.Sublist l₁ l₂ →
      List.Sublist (l₁.flatMap f) (l₂.flatMap f) := by
  intro l₁ l₂ h
  induction h with
  | slnil => simp
  | cons a _ ih =>
    simp only [List.flatMap_cons]
    exact List.Sublist.trans ih (List.sublist_append_right (f a) _)
  | cons₂ a _ ih =>
    simp only [List.flatMap_cons]
    exact List.Sublist.append (List.Sublist.refl (f a)) ih

theorem levelNodes_length_le {s : SkipState} {sh : Shape} (h : ModelsW s sh)
    (cols' : List (Int × List Nat)) (hsub : List.Sublist cols' sh.cols) (k : Nat) :
    (levelNodes cols' k).length ≤ s.heap.length := by
  have hsub2 : List.Sublist (levelNodes cols' k) (sh.cols.flatMap (·.2)) :=
    List.Sublist.trans (levelNodes_sublist k cols')
      (sublist_flatMap_of_sublist (·.2) hsub)
  have hnd : (sh.cols.flatMap (·.2)).Nodup := (List.nodup_append.mp h.2.2.2.2.2.1).2.1
  exact nodup_bounded_length _ s.heap.length (List.Nodup.sublist hsub2 hnd)
    (fun i hi => live_bounded h i (List.mem_append.mpr (Or.inr (hsub2.mem hi))))

/-!  ## `height` and `descend` -/

theorem heightAux_sent {heap : List Node} {sents : List Nat}
    (hcol : columnOkB heap none none sents = true) :
    ∀ (k : Nat) (sk : Nat), sents[k]? = some sk →
      ∀ (f : Nat), k < f → heightAux heap f sk = some (k + 1) := by
  intro k
  induction k with
  | zero =>
    intro sk hk f hf
    obtain ⟨n, hn, _, hd⟩ := columnOkB_getElem heap none sents none hcol 0 sk hk
    cases f with
    | zero => exact absurd hf (by simp)
    | succ f' => simp [heightAux, hn, hd]
  | succ k' ih =>
    intro sk hk f hf
    obtain ⟨n, hn, _, hd⟩ := columnOkB_getElem heap none sents none hcol (k' + 1) sk hk
    simp only [Nat.succ_ne_zero, if_false, Nat.add_sub_cancel] at hd
    rcases hk' : sents[k']? with _ | sk'
    · rw [hk'] at hd
      have : k' < sents.length := by
        have := lt_length_of_getElem? hk
        omega
      rw [List.getElem?_eq_getElem this] at hk'
      exact absurd hk' (by simp)
    · rw [hk'] at hd
      cases f with
      | zero => exact absurd hf (by simp)
      | succ f' =>
        have := ih sk' hk' f' (by omega)
        simp [heightAux, hn, hd, this]

theorem height_spec {s : SkipState} {sh : Shape} (h : ModelsW s sh) :
    height s = some sh.sents.length := by
  have hne : sh.sents ≠ [] := by
    intro he
    have h1 := h.1
    rw [he] at h1
    simp at h1
  have hlen : 0 < sh.sents.length := List.length_pos.mpr hne
  have hlast : sh.sents[sh.sents.length - 1]? = some s.head := by
    rw [← List.getLast?_eq_getElem?]
    exact h.1
  have := heightAux_sent h.2.1 (sh.sents.length - 1) s.head hlast (fuelOf s)
    (by have := sents_length_le h; unfold fuelOf; omega)
  rw [height, this]
  congr 1
  omega

theorem descend_sent {heap : List Node} {sents : List Nat}
    (hcol : columnOkB heap none none sents = true) (s0 : Nat)
    (hs0 : sents[0]? = some s0) :
    ∀ (k : Nat) (sk : Nat), sents[k]? = some sk →
      ∀ (f : Nat), k < f → descend heap f sk = some s0 := by
  intro k
  induction k with
  | zero =>
    intro sk hk f hf
    obtain ⟨n, hn, _, hd⟩ := columnOkB_getElem heap none sents none hcol 0 sk hk
    cases f with
    | zero => exact absurd hf (by simp)
    | succ f' =>
      rw [hk] at hs0
      cases hs0
      simp [descend, hn, hd]
  | succ k' ih =>
    intro sk hk f hf
    obtain ⟨n, hn, _, hd⟩ := columnOkB_getElem heap none sents none hcol (k' + 1) sk hk
    simp only [Nat.succ_ne_zero, if_false, Nat.add_sub_cancel] at hd
    rcases hk' : sents[k']? with _ | sk'
    · have : k' < sents.length := by
        have := lt_length_of_getElem? hk
        omega
      rw [List.getElem?_eq_getElem this] at hk'
      exact absurd hk' (by simp)
    · rw [hk'] at hd
      cases f with
      | zero => exact absurd hf (by simp)
      | succ f' =>
        have := ih sk' hk' f' (by omega)
        simp [descend, hn, hd, this]

/-!  ## Splitting the entry list at the searched value -/

theorem getLastD_append {α : Type} (y : List α) :
    ∀ (x : List α) (d : α), (x ++ y).getLastD d = y.getLastD (x.getLastD d) := by
  intro x
  induction x with
  | nil => intro d; rfl
  | cons a x' ih =>
    intro d
    rw [List.cons_append, List.getLastD_cons, List.getLastD_cons, ih]

theorem mem_levelNodes {cols : List (Int × List Nat)} {k i : Nat} :
    i ∈ levelNodes cols k ↔ ∃ c ∈ cols, c.2[k]? = some i := by
  simp [levelNodes, List.mem_filterMap]

theorem levelNodes_append (x y : List (Int × List Nat)) (k : Nat) :
    levelNodes (x ++ y) k = levelNodes x k ++ levelNodes y k := by
  simp [levelNodes, List.filterMap_append]

theorem ltOf_append_geOf (cols : List (Int × List Nat)) (v : Int) :
    ltOf cols v ++ geOf cols v = cols :=
  List.takeWhile_append_dropWhile _ _

theorem mem_cols_of_mem_ltOf {cols : List (Int × List Nat)} {v : Int}
    {c : Int × List Nat} (h : c ∈ ltOf cols v) : c ∈ cols :=
  (List.takeWhile_sublist _).mem h

theorem mem_cols_of_mem_geOf {cols : List (Int × List Nat)} {v : Int}
    {c : Int × List Nat} (h : c ∈ geOf cols v) : c ∈ cols :=
  (List.dropWhile_sublist _).mem h

theorem ltOf_lt {cols : List (Int × List Nat)} {v : Int}
    {c : Int × List Nat} (h : c ∈ ltOf cols v) : c.1 < v := by
  have := List.mem_takeWhile_imp h
  simpa using this

theorem geOf_ge {cols : List (Int × List Nat)} {v : Int}
    (hs : List.Pairwise (· ≤ ·) (cols.map (·.1))) :
    ∀ c ∈ geOf cols v, v ≤ c.1 := by
  induction cols with
  | nil => intro c hc; simp [geOf] at hc
  | cons c₀ rest ih =>
    intro c hc
    simp only [List.map_cons, List.pairwise_cons] at hs
    by_cases h0 : c₀.1 < v
    · rw [geOf, List.dropWhile_cons_of_pos (by simpa using h0)] at hc
      exact ih hs.2 c hc
    · rw [geOf, List.dropWhile_cons_of_neg (by simpa using h0)] at hc
      rcases List.mem_cons.mp hc with rfl | hc'
      · omega
      · have h1 : c₀.1 ≤ c.1 := hs.1 c.1 (List.mem_map.mpr ⟨c, hc', rfl⟩)
        omega

/-- Splitting a `filterMap` at its last element. -/
theorem filterMap_getLast?_split {α β : Type} (f : α → Option β) :
    ∀ (l : List α) (g : β), (l.filterMap f).getLast? = some g →
      ∃ A e C, l = A ++ e :: C ∧ f e = some g ∧ C.filterMap f = [] := by
  intro l
  induction l with
  | nil => intro g hg; simp at hg
  | cons c rest ih =>
    intro g hg
    rcases hr : (rest.filterMap f).getLast? with _ | g'
    · have hre : rest.filterMap f = [] := by
        cases hrf : rest.filterMap f with
        | nil => rfl
        | cons x xs => rw [hrf] at hr; simp [List.getLast?] at hr
      rcases hfc : f c with _ | x
      · rw [List.filterMap_cons_none hfc, hre] at hg
        simp at hg
      · rw [List.filterMap_cons_some hfc, hre] at hg
        simp only [List.getLast?_singleton, Option.some_inj] at hg
        exact ⟨[], c, rest, by simp, by rw [hfc, hg], hre⟩
    · obtain ⟨A, e, C, hsplit, hfe, hC⟩ := ih g' hr
      have hne : rest.filterMap f ≠ [] := by
        intro he
        rw [he] at hr
        simp at hr
      have hg' : g = g' := by
        rcases hfc : f c with _ | x
        · rw [List.filterMap_cons_none hfc, hr] at hg
          exact (Option.some_inj.mp hg).symm
        · rw [List.filterMap_cons_some hfc, List.getLast?_cons, hr] at hg
          simpa using hg.symm
      subst hg'
      exact ⟨c :: A, e, C, by rw [hsplit, List.cons_append], hfe, hC⟩

/-!  ## The rightward walk -/

theorem walkRight_spec (heap : List Node) (v : Int) :
    ∀ (a : List Nat) (p : Nat) (pn : Node) (b : List Nat),
      heap[p]? = some pn → chainB heap pn.right (a ++ b) = true →
      (∀ i ∈ a, ∃ n w, heap[i]? = some n ∧ n.value = some w ∧ w < v) →
      (∀ j ∈ b.head?, ∃ n w, heap[j]? = some n ∧ n.value = some w ∧ ¬ w < v) →
      ∀ (f : Nat), a.length < f →
        walkRight heap v f p = some (a.getLastD p, b.head?) := by
  intro a
  induction a with
  | nil =>
    intro p pn b hp hc _ hb f hf
    cases f with
    | zero => exact absurd hf (by simp)
    | succ f' =>
      cases b with
      | nil =>
        have hr : pn.right = none := by
          rcases hr : pn.right with _ | i
          · rfl
          · rw [hr] at hc
            rw [List.append_nil, chainB_some_nil] at hc
            exact absurd hc (by simp)
        simp [walkRight, hp, hr]
      | cons j rest =>
        have hr : pn.right = some j := by
          rcases hr : pn.right with _ | i
          · rw [hr] at hc; simp [chainB] at hc
          · rw [hr] at hc
            obtain ⟨rfl, _⟩ := (chainB_some_cons heap i j rest).mp (by simpa using hc)
            rfl
        obtain ⟨n, w, hn, hw, hlt⟩ := hb j (by simp)
        simp [walkRight, hp, hr, hn, hw, hlt]
  | cons x a' ih =>
    intro p pn b hp hc ha hb f hf
    cases f with
    | zero => exact absurd hf (by simp)
    | succ f' =>
      have hc' : chainB heap pn.right (x :: (a' ++ b)) = true := by simpa using hc
      rcases hr : pn.right with _ | i
      · rw [hr] at hc'; simp [chainB] at hc'
      · rw [hr] at hc'
        obtain ⟨rfl, n, hn, hrest⟩ := (chainB_some_cons heap i x (a' ++ b)).mp hc'
        obtain ⟨n', w, hn', hw, hlt⟩ := ha i (by simp)
        rw [hn] at hn'
        cases hn'
        have := ih i n b hn hrest (fun y hy => ha y (List.mem_cons_of_mem _ hy)) hb f'
          (by simpa using Nat.lt_of_succ_lt_succ hf)
        rw [List.getLastD_cons]
        simp only [walkRight, hp, hr, hn, hw, hlt, if_pos]
        exact this

/-!  ## The traverse specification -/

/-- Tracked triples for levels `0 .. k-1`, ascending. -/
def expFrom (sents : List Nat) (cols : List (Int × List Nat)) (v : Int) (k : Nat) :
    List (Int × Nat × Option Nat) :=
  (List.range k).map (fun (j : Nat) => ((j : Int), preD sents cols v j, curD cols v j))

theorem expTracked_eq_expFrom (sents : List Nat) (cols : List (Int × List Nat)) (v : Int) :
    expTracked sents cols v = expFrom sents cols v sents.length := rfl

theorem sentAt_eq {sents : List Nat} {k : Nat} (hk : k < sents.length) :
    sents[k]? = some (sentAt sents k) := by
  rw [sentAt, List.getElem?_eq_getElem hk]
  rfl

theorem mem_of_getLast?_some {α : Type} {l : List α} {a : α} (h : l.getLast? = some a) :
    a ∈ l := by
  rw [List.getLast?_eq_getElem?] at h
  obtain ⟨hlt, he⟩ := List.getElem?_eq_some.mp h
  exact he ▸ List.getElem_mem hlt

theorem mem_of_head? {α : Type} {l : List α} {a : α} (h : l.head? = some a) : a ∈ l := by
  cases l with
  | nil => simp at h
  | cons x xs =>
    simp only [List.head?_cons, Option.some_inj] at h
    exact h ▸ List.mem_cons_self x xs

/-- The inner walk of `traverse` at level `k`, started anywhere at or
behind the tracked predecessor: it ends at level `k`'s tracked
`(pre, cur)` pair. -/
theorem walk_at_level {s : SkipState} {sh : Shape} (h : ModelsW s sh) (v : Int) (k : Nat)
    (hk : k < sh.sents.length) (A B : List (Int × List Nat))
    (hAB : ltOf sh.cols v = A ++ B) :
    walkRight s.heap v (fuelOf s) ((levelNodes A k).getLastD (sentAt sh.sents k)) =
      some (preD sh.sents sh.cols v k, curD sh.cols v k) := by
  have hlev := h.2.2.2.1 k hk
  simp only [levelOkB, sentAt_eq hk] at hlev
  rcases hsn : s.heap[sentAt sh.sents k]? with _ | skn
  · simp only [hsn] at hlev
    exact absurd hlev (by simp)
  · simp only [hsn] at hlev
    have hcols : levelNodes sh.cols k =
        levelNodes A k ++ (levelNodes B k ++ levelNodes (geOf sh.cols v) k) := by
      conv_lhs => rw [← ltOf_append_geOf sh.cols v]
      rw [levelNodes_append, hAB, levelNodes_append, List.append_assoc]
    rw [hcols] at hlev
    obtain ⟨pn, hpn, hchain⟩ := chainB_after s.heap (levelNodes A k)
      (sentAt sh.sents k) skn _ hsn hlev
    have hlt : ∀ i ∈ levelNodes B k,
        ∃ n w, s.heap[i]? = some n ∧ n.value = some w ∧ w < v := by
      intro i hi
      obtain ⟨c, hcB, hci⟩ := mem_levelNodes.mp hi
      have hclt : c ∈ ltOf sh.cols v := by rw [hAB]; exact List.mem_append_right A hcB
      obtain ⟨n, hn, hv, _⟩ := col_node h (mem_cols_of_mem_ltOf hclt) k i hci
      exact ⟨n, c.1, hn, hv, ltOf_lt hclt⟩
    have hge : ∀ j ∈ (levelNodes (geOf sh.cols v) k).head?,
        ∃ n w, s.heap[j]? = some n ∧ n.value = some w ∧ ¬ w < v := by
      intro j hj
      obtain ⟨c, hcg, hcj⟩ := mem_levelNodes.mp (mem_of_head? hj)
      obtain ⟨n, hn, hv, _⟩ := col_node h (mem_cols_of_mem_geOf hcg) k j hcj
      exact ⟨n, c.1, hn, hv, by
        have := geOf_ge h.2.2.2.2.2.2 c hcg
        omega⟩
    have hfuel : (levelNodes B k).length < fuelOf s := by
      have hBsub : List.Sublist B sh.cols := by
        have h1 : List.Sublist B (ltOf sh.cols v) := hAB ▸ List.sublist_append_right A B
        exact List.Sublist.trans h1 (List.takeWhile_sublist _)
      have := levelNodes_length_le h B hBsub k
      rw [fuelOf]
      omega
    have := walkRight_spec s.heap v (levelNodes B k) _ pn
      (levelNodes (geOf sh.cols v) k) hpn hchain hlt hge (fuelOf s) hfuel
    rw [this]
    simp only [preD, curD, hAB, levelNodes_append, getLastD_append]

/-- The node sitting at the tracked predecessor of level `k`, together
with its `down` link: the sentinel below, or the same entry's copy
below, or nothing at level 0. -/
theorem preD_node {s : SkipState} {sh : Shape} (h : ModelsW s sh) (v : Int) (k : Nat)
    (hk : k < sh.sents.length) :
    ∃ pn, s.heap[preD sh.sents sh.cols v k]? = some pn ∧
      (k = 0 → pn.down = none) ∧
      (∀ k', k = k' + 1 →
        ∃ A B, ltOf sh.cols v = A ++ B ∧
          pn.down = some ((levelNodes A k').getLastD (sentAt sh.sents k'))) := by
  rcases hg : (levelNodes (ltOf sh.cols v) k).getLast? with _ | g
  · -- no strictly-smaller node at this level: the predecessor is the sentinel
    have hpre : preD sh.sents sh.cols v k = sentAt sh.sents k := by
      rw [preD, getLastD_eq_getLast?_getD, hg]
      rfl
    obtain ⟨n, hn, _, hd⟩ := sent_node h k (sentAt sh.sents k) (sentAt_eq hk)
    refine ⟨n, hpre ▸ hn, fun h0 => by simp [hd, h0], fun k' hk' => ?_⟩
    refine ⟨[], ltOf sh.cols v, by simp, ?_⟩
    have hk'' : k' < sh.sents.length := by omega
    rw [hd]
    simp only [hk', Nat.succ_ne_zero, if_false, Nat.add_sub_cancel, sentAt_eq hk'',
      levelNodes]
    simp
  · -- the predecessor is the last smaller entry's level-`k` copy
    have hg2 := hg
    rw [levelNodes] at hg2
    obtain ⟨A, e, C, hsplit, hfe, hC⟩ :=
      filterMap_getLast?_split (fun c => c.2[k]?) (ltOf sh.cols v) g hg2
    have hpre : preD sh.sents sh.cols v k = g := by
      rw [preD, getLastD_eq_getLast?_getD, hg]
      rfl
    have heltcols : e ∈ sh.cols :=
      mem_cols_of_mem_ltOf (hsplit ▸ List.mem_append_right A (List.mem_cons_self e C))
    obtain ⟨n, hn, _, hd⟩ := col_node h heltcols k g hfe
    refine ⟨n, hpre ▸ hn, fun h0 => by simp [hd, h0], fun k' hk' => ?_⟩
    have hklen : k < e.2.length := lt_length_of_getElem? hfe
    have hk'len : k' < e.2.length := by omega
    refine ⟨A ++ [e], C, by rw [hsplit, List.append_assoc]; rfl, ?_⟩
    rw [hd]
    simp only [hk', Nat.succ_ne_zero, if_false, Nat.add_sub_cancel]
    rw [levelNodes_append, getLastD_append]
    have : levelNodes [e] k' = [e.2[k']] := by
      simp [levelNodes, List.getElem?_eq_getElem hk'len]
    rw [this, List.getElem?_eq_getElem hk'len]
    rfl

/-- The outer loop of `traverse`, started at any level with any
admissible start node, runs to level `-1` and accumulates exactly the
tracked triples of the levels it visits. -/
theorem traverseAux_spec {s : SkipState} {sh : Shape} (h : ModelsW s sh) (v : Int) :
    ∀ (k : Nat), k < sh.sents.length →
      ∀ (p : Nat), (∃ A B, ltOf sh.cols v = A ++ B ∧
          p = (levelNodes A k).getLastD (sentAt sh.sents k)) →
      ∀ (f : Nat) (acc : List (Int × Nat × Option Nat)), k < f →
        traverseAux s.heap (fuelOf s) v f (some p) (k : Int) acc =
          some (expFrom sh.sents sh.cols v (k + 1) ++ acc, -1) := by
  intro k
  induction k with
  | zero =>
    intro hk p hstart f acc hf
    obtain ⟨A, B, hAB, rfl⟩ := hstart
    cases f with
    | zero => exact absurd hf (by simp)
    | succ f' =>
      have hwalk := walk_at_level h v 0 hk A B hAB
      obtain ⟨pn, hpn, hd0, _⟩ := preD_node h v 0 hk
      simp only [traverseAux, hwalk, hpn, hd0 rfl]
      simp [expFrom, List.range_succ]
  | succ k' ih =>
    intro hk p hstart f acc hf
    obtain ⟨A, B, hAB, rfl⟩ := hstart
    cases f with
    | zero => exact absurd hf (by simp)
    | succ f' =>
      have hwalk := walk_at_level h v (k' + 1) hk A B hAB
      obtain ⟨pn, hpn, _, hdS⟩ := preD_node h v (k' + 1) hk
      obtain ⟨A', B', hAB', hdown⟩ := hdS k' rfl
      have hk' : k' < sh.sents.length := by omega
      have hstep := ih hk' _ ⟨A', B', hAB', rfl⟩ f'
        ((((k' + 1 : Nat) : Int), preD sh.sents sh.cols v (k' + 1),
          curD sh.cols v (k' + 1)) :: acc) (by omega)
      simp only [traverseAux, hwalk, hpn, hdown]
      have hcast : ((k' + 1 : Nat) : Int) - 1 = (k' : Int) := by push_cast; ring
      rw [hcast, hstep]
      congr 1
      rw [expFrom, expFrom, List.range_succ (k' + 1)]
      simp [List.map_append]

theorem sents_ne_nil {s : SkipState} {sh : Shape} (h : ModelsW s sh) :
    0 < sh.sents.length := by
  rcases hl : sh.sents with _ | ⟨a, l⟩
  · have h1 := h.1
    rw [hl] at h1
    simp at h1
  · simp

/-- Full `traverse` up to the assertions: it visits every level and the
level counter ends at exactly `-1`. -/
theorem traverseRaw_spec {s : SkipState} {sh : Shape} (h : ModelsW s sh) (v : Int) :
    traverseRaw s v = some (expTracked sh.sents sh.cols v, -1) := by
  have hlen : 0 < sh.sents.length := sents_ne_nil h
  have hhead : sentAt sh.sents (sh.sents.length - 1) = s.head := by
    have h1 := h.1
    rw [List.getLast?_eq_getElem?] at h1
    rw [sentAt, h1]
    rfl
  have hmain := traverseAux_spec h v (sh.sents.length - 1) (by omega) s.head
    ⟨[], ltOf sh.cols v, by simp [ltOf],
      by simpa [levelNodes] using hhead.symm⟩ (fuelOf s) []
    (by have := sents_length_le h; rw [fuelOf]; omega)
  have hcast : ((sh.sents.length : Int)) - 1 = ((sh.sents.length - 1 : Nat) : Int) := by
    omega
  simp only [traverseRaw, height_spec h]
  rw [hcast, hmain, expTracked_eq_expFrom, List.append_nil, Nat.sub_add_cancel hlen]

/-- Full `traverse`: both internal assertions pass and the tracked map
is exactly the shape-level description. -/
theorem traverse_spec {s : SkipState} {sh : Shape} (h : ModelsW s sh) (v : Int) :
    traverse s v = some (expTracked sh.sents sh.cols v) := by
  simp only [traverse, traverseRaw_spec h v]
  simp

/-!  ## Looking up tracked levels -/

theorem lookup_append {α β : Type} [BEq α] (a : α) :
    ∀ (l₁ l₂ : List (α × β)), List.lookup a (l₁ ++ l₂) =
      match List.lookup a l₁ with
      | some b => some b
      | none => List.lookup a l₂ := by
  intro l₁
  induction l₁ with
  | nil => intro l₂; rfl
  | cons p rest ih =>
    intro l₂
    rcases p with ⟨x, b⟩
    rcases hax : a == x with _ | _
    · simp only [List.cons_append, List.lookup_cons, hax]
      exact ih l₂
    · simp only [List.cons_append, List.lookup_cons, hax]

theorem lookup_range_map_none {β : Type} (g : Nat → β) :
    ∀ (n m : Nat), n ≤ m →
      List.lookup ((m : Nat) : Int) ((List.range n).map (fun (j : Nat) => ((j : Int), g j)))
        = none := by
  intro n
  induction n with
  | zero => intro m _; rfl
  | succ n' ih =>
    intro m hm
    rw [List.range_succ, List.map_append, lookup_append]
    rw [ih m (by omega)]
    have hne : ¬ ((m : Int) == ((n' : Nat) : Int)) = true := by
      simp only [beq_iff_eq]
      intro he
      have : m = n' := by exact_mod_cast he
      omega
    simp only [List.map_cons, List.map_nil, List.lookup_cons]
    simp [hne]

theorem lookup_range_map {β : Type} (g : Nat → β) :
    ∀ (n i : Nat), i < n →
      List.lookup ((i : Nat) : Int) ((List.range n).map (fun (j : Nat) => ((j : Int), g j)))
        = some (g i) := by
  intro n
  induction n with
  | zero => intro i hi; exact absurd hi (by simp)
  | succ n' ih =>
    intro i hi
    rw [List.range_succ, List.map_append, lookup_append]
    by_cases hcase : i < n'
    · rw [ih i hcase]
    · have hieq : i = n' := by omega
      rw [hieq, lookup_range_map_none g n' n' (by omega)]
      simp

theorem lookup_expTracked {sents : List Nat} {cols : List (Int × List Nat)} {v : Int}
    {i : Nat} (hi : i < sents.length) :
    List.lookup ((i : Nat) : Int) (expTracked sents cols v) =
      some (preD sents cols v i, curD cols v i) := by
  rw [expTracked_eq_expFrom, expFrom]
  exact lookup_range_map (fun j => (preD sents cols v j, curD cols v j)) sents.length i hi

/-!  ## `iter` and `find` specifications -/

theorem col_level0 {s : SkipState} {sh : Shape} (h : ModelsW s sh)
    {c : Int × List Nat} (hc : c ∈ sh.cols) :
    ∃ i, c.2[0]? = some i ∧ ∃ n, s.heap[i]? = some n ∧ n.value = some c.1 ∧
      n.down = none := by
  have hne := (h.2.2.1 c hc).1
  have hlen : 0 < c.2.length := List.length_pos.mpr hne
  refine ⟨c.2[0], List.getElem?_eq_getElem hlen, ?_⟩
  obtain ⟨n, hn, hv, hd⟩ := col_node h hc 0 c.2[0] (List.getElem?_eq_getElem hlen)
  exact ⟨n, hn, hv, by simpa using hd⟩

theorem collectRight_level {heap : List Node} :
    ∀ (cols' : List (Int × List Nat)) (r : Option Nat),
      (∀ c ∈ cols', ∃ i, c.2[0]? = some i ∧ ∃ n, heap[i]? = some n ∧
        n.value = some c.1) →
      chainB heap r (levelNodes cols' 0) = true →
      ∀ (f : Nat), (levelNodes cols' 0).length < f →
        collectRight heap f r = some (cols'.map (·.1)) := by
  intro cols'
  induction cols' with
  | nil =>
    intro r _ hchain f hf
    have hr : r = none := by
      cases r with
      | none => rfl
      | some i => simp [levelNodes, chainB] at hchain
    subst hr
    cases f with
    | zero => exact absurd hf (by simp)
    | succ f' => rfl
  | cons c rest ih =>
    intro r hvals hchain f hf
    obtain ⟨i, hi, n, hn, hv⟩ := hvals c (List.mem_cons_self c rest)
    have hlev : levelNodes (c :: rest) 0 = i :: levelNodes rest 0 := by
      simp [levelNodes, List.filterMap_cons, hi]
    rw [hlev] at hchain hf
    cases r with
    | none => simp [chainB] at hchain
    | some r' =>
      obtain ⟨rfl, n', hn', hrest⟩ := (chainB_some_cons heap r' i _).mp hchain
      rw [hn] at hn'
      cases hn'
      cases f with
      | zero => exact absurd hf (by simp)
      | succ f' =>
        have := ih n.right (fun x hx => hvals x (List.mem_cons_of_mem c hx)) hrest f'
          (by simpa using Nat.lt_of_succ_lt_succ hf)
        simp [collectRight, hn, hv, this]

/-- `iter` yields exactly the entry values in bottom-level order. -/
theorem iter_spec {s : SkipState} {sh : Shape} (h : ModelsW s sh) :
    iter s = some (sh.cols.map (·.1)) := by
  have hlen : 0 < sh.sents.length := sents_ne_nil h
  have hhead : sentAt sh.sents (sh.sents.length - 1) = s.head := by
    have h1 := h.1
    rw [List.getLast?_eq_getElem?] at h1
    rw [sentAt, h1]
    rfl
  have hdesc := descend_sent h.2.1 (sentAt sh.sents 0) (sentAt_eq hlen)
    (sh.sents.length - 1) s.head (hhead ▸ sentAt_eq (by omega)) (fuelOf s)
    (by have := sents_length_le h; rw [fuelOf]; omega)
  obtain ⟨n0, hn0, _, _⟩ := sent_node h 0 (sentAt sh.sents 0) (sentAt_eq hlen)
  have hlev := h.2.2.2.1 0 hlen
  simp only [levelOkB, sentAt_eq hlen, hn0] at hlev
  have hvals : ∀ c ∈ sh.cols, ∃ i, c.2[0]? = some i ∧ ∃ n, s.heap[i]? = some n ∧
      n.value = some c.1 := by
    intro c hc
    obtain ⟨i, hi, n, hn, hv, _⟩ := col_level0 h hc
    exact ⟨i, hi, n, hn, hv⟩
  have hfuel : (levelNodes sh.cols 0).length < fuelOf s := by
    have := levelNodes_length_le h sh.cols (List.Sublist.refl _) 0
    rw [fuelOf]
    omega
  simp only [iter, hdesc, hn0,
    collectRight_level sh.cols n0.right hvals hlev (fuelOf s) hfuel]

/-- `find` decides membership of the value among the entries. -/
theorem find_spec {s : SkipState} {sh : Shape} (h : ModelsW s sh) (v : Int) :
    find s v = some (decide (v ∈ sh.cols.map (·.1))) := by
  have hlen : 0 < sh.sents.length := sents_ne_nil h
  have hl0 : List.lookup (0 : Int) (expTracked sh.sents sh.cols v) =
      some (preD sh.sents sh.cols v 0, curD sh.cols v 0) := by
    have := @lookup_expTracked sh.sents sh.cols v 0 hlen
    simpa using this
  simp only [find, traverse_spec h v, hl0]
  rcases hcur : curD sh.cols v 0 with _ | c0
  · -- no successor at level 0: `v` is absent
    have hgeempty : geOf sh.cols v = [] := by
      rcases hge : geOf sh.cols v with _ | ⟨g, rest⟩
      · rfl
      · exfalso
        have hgcols : g ∈ sh.cols := mem_cols_of_mem_geOf (hge ▸ List.mem_cons_self g rest)
        obtain ⟨i, hi, _⟩ := col_level0 h hgcols
        rw [curD, hge] at hcur
        simp [levelNodes, List.filterMap_cons, hi] at hcur
    have hnotmem : ¬ v ∈ sh.cols.map (·.1) := by
      intro hmem
      obtain ⟨c, hc, hcv⟩ := List.mem_map.mp hmem
      have : c ∈ ltOf sh.cols v ++ geOf sh.cols v := by
        rw [ltOf_append_geOf]; exact hc
      rcases List.mem_append.mp this with hlt | hge
      · have := ltOf_lt hlt; omega
      · rw [hgeempty] at hge; simp at hge
    simp [hnotmem]
  · -- the successor holds the first entry value `≥ v`
    rcases hge : geOf sh.cols v with _ | ⟨g, rest⟩
    · rw [curD, hge] at hcur
      simp [levelNodes] at hcur
    · have hgcols : g ∈ sh.cols := mem_cols_of_mem_geOf (hge ▸ List.mem_cons_self g rest)
      obtain ⟨i, hi, n, hn, hv, _⟩ := col_level0 h hgcols
      have hc0 : c0 = i := by
        rw [curD, hge] at hcur
        simp [levelNodes, List.filterMap_cons, hi] at hcur
        omega
      subst hc0
      simp only [hn, hv]
      congr 1
      have hiff : (g.1 = v) ↔ (v ∈ sh.cols.map (·.1)) := by
        constructor
        · intro he
          exact List.mem_map.mpr ⟨g, hgcols, he⟩
        · intro hmem
          obtain ⟨c, hc, hcv⟩ := List.mem_map.mp hmem
          have hcge : c ∈ geOf sh.cols v := by
            have : c ∈ ltOf sh.cols v ++ geOf sh.cols v := by
              rw [ltOf_append_geOf]; exact hc
            rcases List.mem_append.mp this with hlt | hge'
            · have := ltOf_lt hlt; omega
            · exact hge'
          have hvg : v ≤ g.1 := geOf_ge h.2.2.2.2.2.2 g (hge ▸ List.mem_cons_self g rest)
          rw [hge] at hcge
          rcases List.mem_cons.mp hcge with rfl | hcrest
          · omega
          · -- `c` comes after `g` in the sorted suffix, so `g.1 ≤ c.1 = v`
            have hsub : List.Sublist (geOf sh.cols v) sh.cols :=
              List.dropWhile_sublist _
            have hpair : List.Pairwise (· ≤ ·) ((geOf sh.cols v).map (·.1)) :=
              List.Pairwise.sublist (List.Sublist.map _ hsub) h.2.2.2.2.2.2
            rw [hge] at hpair
            simp only [List.map_cons, List.pairwise_cons] at hpair
            have := hpair.1 c.1 (List.mem_map.mpr ⟨c, hcrest, rfl⟩)
            omega
      simp [hiff]

/-!  ## Heap surgery lemmas -/

/-- The value/down view of a heap cell; `setRight` never changes it. -/
def vdAt (heap : List Node) (i : Nat) : Option (Option Int × Option Nat) :=
  (heap[i]?).map (fun n => (n.value, n.down))

theorem vdAt_setRight (heap : List Node) (p : Nat) (r : Option Nat) (i : Nat) :
    vdAt (setRight heap p r) i = vdAt heap i := by
  induction heap generalizing p i with
  | nil => rfl
  | cons n rest ih =>
    cases p with
    | zero => cases i with
      | zero => simp [setRight, vdAt]
      | succ i' => simp [setRight, vdAt]
    | succ p' => cases i with
      | zero => simp [setRight, vdAt]
      | succ i' =>
        simp only [setRight, vdAt, List.getElem?_cons_succ]
        exact ih p' i'

theorem vdAt_append (heap ext : List Node) (i : Nat) (hi : i < heap.length) :
    vdAt (heap ++ ext) i = vdAt heap i := by
  rw [vdAt, vdAt, getElem?_append_left' heap ext i hi]

theorem columnOkB_vd (heap heap' : List Node) (v : Option Int) :
    ∀ (ns : List Nat) (below : Option Nat), (∀ j ∈ ns, vdAt heap' j = vdAt heap j) →
      columnOkB heap' v below ns = columnOkB heap v below ns := by
  intro ns
  induction ns with
  | nil => intro below _; rfl
  | cons j rest ih =>
    intro below hag
    have hj := hag j (List.mem_cons_self j rest)
    rw [vdAt, vdAt] at hj
    rcases hn : heap[j]? with _ | n <;> rcases hn' : heap'[j]? with _ | n' <;>
      rw [hn, hn'] at hj <;> simp only [columnOkB, hn, hn']
    all_goals try simp at hj
    obtain ⟨h1, h2⟩ : n'.value = n.value ∧ n'.down = n.down := by simpa using hj
    rw [h1, h2]
    have := ih (some j) (fun x hx => hag x (List.mem_cons_of_mem j hx))
    simp [this]

/-- Splicing a freshly allocated node `m` right after the last node of
the prefix `xs` (or after the anchor `d` itself): the anchor keeps its
value and `down`, and its chain gains `m` between `xs` and `ys`. -/
theorem chainB_splice (heap : List Node) (val : Option Int) (dwn : Option Nat) :
    ∀ (xs : List Nat) (d : Nat) (dn : Node) (ys : List Nat),
      heap[d]? = some dn → chainB heap dn.right (xs ++ ys) = true →
      (d :: (xs ++ ys)).Nodup →
      (∀ i ∈ d :: (xs ++ ys), i < heap.length) →
      ∃ dn2,
        (setRight (heap ++ [⟨val, dwn, ys.head?⟩]) (xs.getLastD d)
            (some heap.length))[d]? = some dn2 ∧
        dn2.value = dn.value ∧ dn2.down = dn.down ∧
        chainB (setRight (heap ++ [⟨val, dwn, ys.head?⟩]) (xs.getLastD d)
            (some heap.length)) dn2.right (xs ++ heap.length :: ys) = true := by
  intro xs
  induction xs with
  | nil =>
    intro d dn ys hd hchain hnd hbound
    simp only [List.nil_append] at hchain hnd hbound ⊢
    simp only [List.getLastD_nil]
    have hdlen : d < heap.length := hbound d (by simp)
    have hd2 : (heap ++ [⟨val, dwn, ys.head?⟩])[d]? = some dn := by
      rw [getElem?_append_left' heap _ d hdlen]
      exact hd
    have hself := getElem?_setRight_self (heap ++ [⟨val, dwn, ys.head?⟩]) d
      (some heap.length) dn hd2
    refine ⟨⟨dn.value, dn.down, some heap.length⟩, hself, rfl, rfl, ?_⟩
    refine (chainB_some_cons _ heap.length _ _).mpr ⟨rfl, ⟨val, dwn, ys.head?⟩, ?_, ?_⟩
    · -- the fresh node sits at index `heap.length`, untouched by `setRight`
      rw [getElem?_setRight_ne _ d heap.length _ (by omega)]
      rw [List.getElem?_append_right (by omega)]
      simp
    · -- its `right` link continues with `ys` exactly as the anchor used to
      have hys : chainB heap ys.head? ys = true := by
        cases ys with
        | nil => rfl
        | cons y ys' =>
          have hdr : dn.right = some y := by
            rcases hr : dn.right with _ | i
            · rw [hr] at hchain; simp [chainB] at hchain
            · rw [hr] at hchain
              obtain ⟨rfl, _⟩ := (chainB_some_cons heap i y ys').mp hchain
              rfl
          rw [hdr] at hchain
          simp only [List.head?_cons]
          exact hchain
      rw [chainB_congr _ _ ys ys.head? ?_]
      · exact hys
      · intro j hj
        have hjd : j ≠ d := by
          intro he
          have := (List.nodup_cons.mp hnd).1
          exact this (by rw [← he]; exact hj)
        rw [getElem?_setRight_ne _ d j _ (fun he => hjd he.symm)]
        exact getElem?_append_left' heap _ j (hbound j (List.mem_cons_of_mem d hj))
  | cons x xs' ih =>
    intro d dn ys hd hchain hnd hbound
    rcases hr : dn.right with _ | i
    · rw [hr] at hchain; simp [chainB] at hchain
    · rw [hr] at hchain
      obtain ⟨rfl, nx, hnx, hrest⟩ :=
        (chainB_some_cons heap i x (xs' ++ ys)).mp (by simpa using hchain)
      have hnd' : (i :: (xs' ++ ys)).Nodup := by
        have h1 := (List.nodup_cons.mp hnd).2
        simpa using h1
      have hbound' : ∀ j ∈ i :: (xs' ++ ys), j < heap.length := by
        intro j hj
        rcases List.mem_cons.mp hj with rfl | hj'
        · exact hbound j (by simp)
        · exact hbound j (by simp [hj'])
      obtain ⟨nx2, hnx2, hval2, hdown2, hchain2⟩ := ih i nx ys hnx hrest hnd' hbound'
      have hp : (i :: xs').getLastD d = xs'.getLastD i := List.getLastD_cons d i xs'
      have hdne : (xs'.getLastD i) ≠ d := by
        intro he
        have hmem : xs'.getLastD i ∈ i :: xs' := by
          rw [getLastD_eq_getLast?_getD]
          rcases hl : xs'.getLast? with _ | y
          · simp
          · have : y ∈ xs' := mem_of_getLast?_some hl
            simp [this]
        have hnotd := (List.nodup_cons.mp hnd).1
        refine hnotd ?_
        rw [← he]
        rcases List.mem_cons.mp hmem with h1 | h1
        · rw [h1]; exact List.mem_cons_self i (xs' ++ ys)
        · exact List.mem_cons_of_mem i (List.mem_append.mpr (Or.inl h1))
      have hd2 : (setRight (heap ++ [⟨val, dwn, ys.head?⟩]) ((i :: xs').getLastD d)
          (some heap.length))[d]? = some dn := by
        rw [hp, getElem?_setRight_ne _ _ d _ hdne]
        rw [getElem?_append_left' heap _ d (hbound d (by simp))]
        exact hd
      refine ⟨dn, hd2, rfl, rfl, ?_⟩
      rw [hr, List.cons_append]
      refine (chainB_some_cons _ i i _).mpr ⟨rfl, nx2, ?_, ?_⟩
      · rw [hp]
        exact hnx2
      · rw [hp]
        exact hchain2

/-- Unlinking the chain node right after the prefix `xs`: setting the
predecessor's `right` to the victim's `right` removes exactly the
victim from the chain, and the anchor keeps its value and `down`. -/
theorem chainB_unlink (heap : List Node) :
    ∀ (xs : List Nat) (d : Nat) (dn : Node) (c : Nat) (cn : Node) (ys : List Nat),
      heap[d]? = some dn → chainB heap dn.right (xs ++ c :: ys) = true →
      heap[c]? = some cn →
      (d :: (xs ++ c :: ys)).Nodup →
      ∃ dn2,
        (setRight heap (xs.getLastD d) cn.right)[d]? = some dn2 ∧
        dn2.value = dn.value ∧ dn2.down = dn.down ∧
        chainB (setRight heap (xs.getLastD d) cn.right) dn2.right (xs ++ ys) = true := by
  intro xs
  induction xs with
  | nil =>
    intro d dn c cn ys hd hchain hc hnd
    have hdc : d ≠ c := by
      intro he
      exact (List.nodup_cons.mp hnd).1 (by simp [he])
    rcases hr : dn.right with _ | i
    · rw [hr] at hchain; simp [chainB] at hchain
    · rw [hr] at hchain
      obtain ⟨rfl, cn', hcn', hrest⟩ :=
        (chainB_some_cons heap i c ys).mp (by simpa using hchain)
      rw [hc] at hcn'
      cases hcn'
      have hself := getElem?_setRight_self heap d cn.right dn hd
      refine ⟨⟨dn.value, dn.down, cn.right⟩, by simpa using hself, rfl, rfl, ?_⟩
      rw [List.nil_append]
      rw [chainB_congr _ _ ys cn.right ?_]
      · exact hrest
      · intro j hj
        have hjd : j ≠ d := by
          intro he
          exact (List.nodup_cons.mp hnd).1 (by simp [← he, hj])
        exact getElem?_setRight_ne _ d j _ (fun he => hjd he.symm)
  | cons x xs' ih =>
    intro d dn c cn ys hd hchain hc hnd
    rcases hr : dn.right with _ | i
    · rw [hr] at hchain; simp [chainB] at hchain
    · rw [hr] at hchain
      obtain ⟨rfl, nx, hnx, hrest⟩ :=
        (chainB_some_cons heap i x (xs' ++ c :: ys)).mp (by simpa using hchain)
      have hnd' : (i :: (xs' ++ c :: ys)).Nodup := by
        have h1 := (List.nodup_cons.mp hnd).2
        simpa using h1
      obtain ⟨nx2, hnx2, hval2, hdown2, hchain2⟩ := ih i nx c cn ys hnx hrest hc hnd'
      have hp : (i :: xs').getLastD d = xs'.getLastD i := List.getLastD_cons d i xs'
      have hdne : (xs'.getLastD i) ≠ d := by
        intro he
        have hmem : xs'.getLastD i ∈ i :: xs' := by
          rw [getLastD_eq_getLast?_getD]
          rcases hl : xs'.getLast? with _ | y
          · simp
          · have : y ∈ xs' := mem_of_getLast?_some hl
            simp [this]
        have hnotd := (List.nodup_cons.mp hnd).1
        refine hnotd ?_
        rw [← he]
        rcases List.mem_cons.mp hmem with h1 | h1
        · rw [h1]; exact List.mem_cons_self i (xs' ++ c :: ys)
        · exact List.mem_cons_of_mem i (List.mem_append.mpr (Or.inl h1))
      have hd2 : (setRight heap ((i :: xs').getLastD d) cn.right)[d]? = some dn := by
        rw [hp, getElem?_setRight_ne _ _ d _ hdne]
        exact hd
      refine ⟨dn, hd2, rfl, rfl, ?_⟩
      rw [hr, List.cons_append]
      refine (chainB_some_cons _ i i _).mpr ⟨rfl, nx2, ?_, ?_⟩
      · rw [hp]
        exact hnx2
      · rw [hp]
        exact hchain2

/-!  ## Placement: a live index sits at exactly one position -/

theorem getElem?_inj_of_nodup {α : Type} {l : List α} (hnd : l.Nodup) :
    ∀ {j k : Nat} {x : α}, l[j]? = some x → l[k]? = some x → j = k := by
  induction l with
  | nil => intro j k x hj _; simp at hj
  | cons a rest ih =>
    intro j k x hj hk
    obtain ⟨hna, hnr⟩ := List.nodup_cons.mp hnd
    cases j with
    | zero => cases k with
      | zero => rfl
      | succ k' =>
        simp only [List.getElem?_cons_zero, Option.some_inj] at hj
        simp only [List.getElem?_cons_succ] at hk
        exact absurd (hj ▸ (by
          obtain ⟨hlt, he⟩ := List.getElem?_eq_some.mp hk
          exact he ▸ List.getElem_mem hlt : x ∈ rest)) hna
    | succ j' => cases k with
      | zero =>
        simp only [List.getElem?_cons_zero, Option.some_inj] at hk
        simp only [List.getElem?_cons_succ] at hj
        exact absurd (hk ▸ (by
          obtain ⟨hlt, he⟩ := List.getElem?_eq_some.mp hj
          exact he ▸ List.getElem_mem hlt : x ∈ rest)) hna
      | succ k' =>
        simp only [List.getElem?_cons_succ] at hj hk
        rw [ih hnr hj hk]

theorem col_nodup {cols : List (Int × List Nat)}
    (hnd : (cols.flatMap (·.2)).Nodup) {c : Int × List Nat} (hc : c ∈ cols) :
    c.2.Nodup := by
  induction cols with
  | nil => simp at hc
  | cons c' rest ih =>
    rw [List.flatMap_cons, List.nodup_append] at hnd
    rcases List.mem_cons.mp hc with rfl | hc'
    · exact hnd.1
    · exact ih hnd.2.1 hc'

theorem col_disjoint {cols : List (Int × List Nat)}
    (hnd : (cols.flatMap (·.2)).Nodup) :
    ∀ {c1 c2 : Int × List Nat}, c1 ∈ cols → c2 ∈ cols → c1 ≠ c2 →
      ∀ x, x ∈ c1.2 → ¬ x ∈ c2.2 := by
  induction cols with
  | nil => intro c1 c2 h1; simp at h1
  | cons c rest ih =>
    intro c1 c2 h1 h2 hne x hx1 hx2
    rw [List.flatMap_cons, List.nodup_append] at hnd
    rcases List.mem_cons.mp h1 with rfl | h1' <;> rcases List.mem_cons.mp h2 with he2 | h2'
    · exact hne he2.symm
    · exact hnd.2.2 hx1 (mem_flatMap_of_col h2' hx2)
    · rw [he2] at hx2
      exact hnd.2.2 hx2 (mem_flatMap_of_col h1' hx1)
    · exact ih hnd.2.1 h1' h2' hne x hx1 hx2

/-- An index occurs on at most one level of the entry columns. -/
theorem level_placement {cols : List (Int × List Nat)}
    (hnd : (cols.flatMap (·.2)).Nodup) {j k x : Nat}
    (hj : x ∈ levelNodes cols j) (hk : x ∈ levelNodes cols k) : j = k := by
  obtain ⟨c1, hc1, hx1⟩ := mem_levelNodes.mp hj
  obtain ⟨c2, hc2, hx2⟩ := mem_levelNodes.mp hk
  by_cases he : c1 = c2
  · subst he
    exact getElem?_inj_of_nodup (col_nodup hnd hc1) hx1 hx2
  · exact absurd (by
      obtain ⟨hlt, hee⟩ := List.getElem?_eq_some.mp hx2
      exact hee ▸ List.getElem_mem hlt : x ∈ c2.2)
      (col_disjoint hnd hc1 hc2 he x (by
        obtain ⟨hlt, hee⟩ := List.getElem?_eq_some.mp hx1
        exact hee ▸ List.getElem_mem hlt))

/-!  ## Growing the head column -/

/-- Sentinel column after pushing `g` fresh sentinels allocated from
index `N` upward. -/
def grownSents (sents : List Nat) (N g : Nat) : List Nat :=
  sents ++ (List.range g).map (N + ·)

theorem grownSents_zero (sents : List Nat) (N : Nat) :
    grownSents sents N 0 = sents := by
  simp [grownSents]

theorem map_some_getLastD {α : Type} :
    ∀ (l : List α) (d : α), (l.map some).getLastD (some d) = some (l.getLastD d) := by
  intro l
  induction l with
  | nil => intro d; rfl
  | cons x xs ih =>
    intro d
    rw [List.map_cons, List.getLastD_cons, List.getLastD_cons, ih]

theorem grownSents_step (sents : List Nat) (N : Nat) :
    ∀ g, grownSents sents N (g + 1) = grownSents (sents ++ [N]) (N + 1) g := by
  intro g
  rw [grownSents, grownSents, List.range_succ_eq_map, List.append_assoc]
  congr 1
  simp only [List.map_cons, Nat.add_zero, List.map_map, List.singleton_append]
  congr 1
  apply List.map_congr_left
  intro a _
  simp only [Function.comp_apply]
  omega

/-- `levelNodes` is empty at levels at or above every column height. -/
theorem levelNodes_eq_nil {cols : List (Int × List Nat)} {m k : Nat}
    (hh : ∀ c ∈ cols, c.2.length ≤ m) (hk : m ≤ k) : levelNodes cols k = [] := by
  induction cols with
  | nil => rfl
  | cons c rest ih =>
    rw [levelNodes, List.filterMap_cons]
    have hlen : c.2.length ≤ m := hh c (List.mem_cons_self c rest)
    have : c.2[k]? = none := by
      rw [List.getElem?_eq_none]
      omega
    rw [this]
    exact ih (fun c' hc' => hh c' (List.mem_cons_of_mem c hc'))

theorem columnOkB_append_elem (heap : List Node) (v : Option Int) :
    ∀ (xs : List Nat) (b : Option Nat) (i : Nat) (n : Node),
      columnOkB heap v b xs = true → heap[i]? = some n → n.value = v →
      n.down = ((xs.map some).getLastD b) →
      columnOkB heap v b (xs ++ [i]) = true := by
  intro xs
  induction xs with
  | nil =>
    intro b i n hcol hn hv hd
    simp only [List.nil_append, columnOkB, hn]
    simp_all
  | cons x xs' ih =>
    intro b i n hcol hn hv hd
    simp only [columnOkB] at hcol
    rcases hx : heap[x]? with _ | nx
    · rw [hx] at hcol; simp at hcol
    · rw [hx] at hcol
      simp only [Bool.and_eq_true, decide_eq_true_eq] at hcol
      have := ih (some x) i n hcol.2 hn hv (by
        rw [hd, List.map_cons, List.getLastD_cons])
      simp only [List.cons_append, columnOkB, hx]
      simp [hcol.1.1, hcol.1.2, this]

/-- One `growHead` step preserves the structural invariant, pushing one
fresh sentinel on top. -/
theorem growHead_step {s : SkipState} {sh : Shape} (h : ModelsW s sh) :
    ModelsW ⟨s.heap ++ [⟨none, some s.head, none⟩], s.heap.length⟩
      ⟨sh.sents ++ [s.heap.length], sh.cols⟩ := by
  have hbound := live_bounded h
  have hag : ∀ i, i < s.heap.length →
      (s.heap ++ [⟨none, some s.head, none⟩])[i]? = s.heap[i]? := by
    intro i hi
    exact getElem?_append_left' s.heap _ i hi
  refine ⟨?_, ?_, ?_, ?_, ?_, ?_, ?_⟩
  · simp
  · -- the sentinel column gains the fresh top node
    have hold : columnOkB (s.heap ++ [⟨none, some s.head, none⟩]) none none sh.sents
        = true := by
      rw [columnOkB_congr s.heap _ none sh.sents none ?_]
      · exact h.2.1
      · intro j hj
        exact hag j (hbound j (List.mem_append.mpr (Or.inl hj)))
    refine columnOkB_append_elem _ none sh.sents none s.heap.length
      ⟨none, some s.head, none⟩ hold ?_ rfl ?_
    · rw [List.getElem?_append_right (by omega)]
      simp
    · have h1 := h.1
      rcases hl : sh.sents with _ | ⟨a, l⟩
      · rw [hl] at h1; simp at h1
      · rw [hl] at h1
        rw [List.getLast?_cons] at h1
        have h2 : l.getLastD a = s.head := by
          rw [getLastD_eq_getLast?_getD]
          simpa using h1
        simp only [List.map_cons, List.getLastD_cons]
        rw [map_some_getLastD, h2]
  · -- entry columns untouched
    intro c hc
    refine ⟨(h.2.2.1 c hc).1, ?_⟩
    rw [columnOkB_congr s.heap _ (some c.1) c.2 none ?_]
    · exact (h.2.2.1 c hc).2
    · intro j hj
      exact hag j (hbound j (List.mem_append.mpr (Or.inr (mem_flatMap_of_col hc hj))))
  · -- levels: old ones unchanged, the new top level empty
    intro k hk
    dsimp only at hk ⊢
    rw [List.length_append, List.length_singleton] at hk
    by_cases hkold : k < sh.sents.length
    · have hlev := h.2.2.2.1 k hkold
      rcases hsk : sh.sents[k]? with _ | sk
      · rw [List.getElem?_eq_getElem hkold] at hsk
        exact absurd hsk (by simp)
      · simp only [levelOkB, hsk] at hlev
        have hskb : sk < s.heap.length := by
          apply hbound
          refine List.mem_append.mpr (Or.inl ?_)
          obtain ⟨hlt, he⟩ := List.getElem?_eq_some.mp hsk
          exact he ▸ List.getElem_mem hlt
        rcases hn : s.heap[sk]? with _ | n
        · rw [hn] at hlev; simp at hlev
        · rw [hn] at hlev
          simp only [levelOkB, getElem?_append_left' sh.sents [s.heap.length] k hkold,
            hsk, hag sk hskb, hn]
          rw [chainB_congr s.heap _ (levelNodes sh.cols k) n.right ?_]
          · exact hlev
          · intro j hj
            exact hag j (hbound j (List.mem_append.mpr (Or.inr
              ((levelNodes_sublist k sh.cols).mem hj))))
    · -- the new level: the fresh sentinel has no `right`, and no entry
      -- reaches this level
      have hke : k = sh.sents.length := by omega
      rw [levelOkB, hke]
      rw [List.getElem?_append_right (by omega)]
      simp only [Nat.sub_self, List.getElem?_cons_zero]
      rw [List.getElem?_append_right (by omega)]
      simp only [Nat.sub_self, List.getElem?_cons_zero]
      rw [levelNodes_eq_nil h.2.2.2.2.1 (le_refl sh.sents.length)]
      rfl
  · -- height bounds
    intro c hc
    have := h.2.2.2.2.1 c hc
    dsimp only
    rw [List.length_append, List.length_singleton]
    omega
  · -- freshness of the new sentinel index
    have hnd := h.2.2.2.2.2.1
    have hfresh : ¬ s.heap.length ∈ sh.sents ++ sh.cols.flatMap (·.2) := by
      intro hmem
      exact absurd (hbound _ hmem) (by omega)
    dsimp only
    rw [List.nodup_append] at hnd ⊢
    refine ⟨?_, hnd.2.1, ?_⟩
    · rw [List.nodup_append]
      refine ⟨hnd.1, by simp, ?_⟩
      intro a ha hmem
      rw [List.mem_singleton] at hmem
      exact hfresh (hmem ▸ List.mem_append.mpr (Or.inl ha))
    · intro a ha hmem
      rcases List.mem_append.mp ha with ha' | ha'
      · exact hnd.2.2 ha' hmem
      · rw [List.mem_singleton] at ha'
        subst ha'
        exact hfresh (List.mem_append.mpr (Or.inr hmem))
  · exact h.2.2.2.2.2.2

/-- Iterated head growth: the invariant holds with the grown sentinel
column, and the heap grows by exactly `g` cells. -/
theorem growHead_spec :
    ∀ (g : Nat) (s : SkipState) (sh : Shape), ModelsW s sh →
      ModelsW (growHead s g) ⟨grownSents sh.sents s.heap.length g, sh.cols⟩ ∧
      (growHead s g).heap.length = s.heap.length + g := by
  intro g
  induction g with
  | zero =>
    intro s sh h
    rw [growHead, grownSents_zero]
    exact ⟨h, by omega⟩
  | succ g' ih =>
    intro s sh h
    have hstep := growHead_step h
    have := ih ⟨s.heap ++ [⟨none, some s.head, none⟩], s.heap.length⟩
      ⟨sh.sents ++ [s.heap.length], sh.cols⟩ hstep
    rw [growHead]
    constructor
    · rw [grownSents_step]
      have harr : (⟨s.heap ++ [⟨none, some s.head, none⟩], s.heap.length⟩ :
          SkipState).heap.length = s.heap.length + 1 := by
        simp
      rw [← harr]
      exact this.1
    · have h2 := this.2
      simp only [List.length_append, List.length_singleton] at h2
      omega

/-!  ## Splicing a new entry level by level -/

/-- Like `ModelsW`, but entry columns may be empty: the state of
affairs in the middle of `add`'s splicing loop, where the new entry has
been threaded through only the lowest levels (none at the start). -/
def ModelsC (s : SkipState) (sh : Shape) : Prop :=
  sh.sents.getLast? = some s.head ∧
  columnOkB s.heap none none sh.sents = true ∧
  (∀ c ∈ sh.cols, columnOkB s.heap (some c.1) none c.2 = true) ∧
  (∀ k < sh.sents.length, levelOkB s.heap sh.sents sh.cols k = true) ∧
  (∀ c ∈ sh.cols, c.2.length ≤ sh.sents.length) ∧
  (sh.sents ++ sh.cols.flatMap (·.2)).Nodup ∧
  List.Pairwise (· ≤ ·) (sh.cols.map (·.1))

theorem modelsC_of_modelsW {s : SkipState} {sh : Shape} (h : ModelsW s sh) :
    ModelsC s sh :=
  ⟨h.1, h.2.1, fun c hc => (h.2.2.1 c hc).2, h.2.2.2.1, h.2.2.2.2.1,
    h.2.2.2.2.2.1, h.2.2.2.2.2.2⟩

theorem modelsW_of_modelsC {s : SkipState} {sh : Shape} (h : ModelsC s sh)
    (hne : ∀ c ∈ sh.cols, c.2 ≠ []) : ModelsW s sh :=
  ⟨h.1, h.2.1, fun c hc => ⟨hne c hc, h.2.2.1 c hc⟩, h.2.2.2.1, h.2.2.2.2.1,
    h.2.2.2.2.2.1, h.2.2.2.2.2.2⟩

theorem live_boundedC {s : SkipState} {sh : Shape} (h : ModelsC s sh) :
    ∀ i ∈ sh.sents ++ sh.cols.flatMap (·.2), i < s.heap.length := by
  intro i hi
  rcases List.mem_append.mp hi with hi | hi
  · obtain ⟨n, hn, _⟩ := columnOkB_mem_node s.heap none sh.sents none h.2.1 i hi
    exact lt_length_of_getElem? hn
  · obtain ⟨c, hc, hic⟩ := List.mem_flatMap.mp hi
    obtain ⟨n, hn, _⟩ := columnOkB_mem_node s.heap (some c.1) c.2 none
      (h.2.2.1 c hc) i hic
    exact lt_length_of_getElem? hn

/-- The node indices allocated for the new entry: one per spliced
level, consecutively from `N`. -/
def newsArr (N idx : Nat) : List Nat := (List.range idx).map (N + ·)

/-- The entry list while the new value `v` is being spliced in: the new
column sits between the strictly-smaller and the at-or-above entries. -/
def colsIns (cols : List (Int × List Nat)) (v : Int) (N idx : Nat) :
    List (Int × List Nat) :=
  ltOf cols v ++ (v, newsArr N idx) :: geOf cols v

theorem newsArr_zero (N : Nat) : newsArr N 0 = [] := rfl

theorem newsArr_succ (N idx : Nat) : newsArr N (idx + 1) = newsArr N idx ++ [N + idx] := by
  rw [newsArr, newsArr, List.range_succ, List.map_append]
  rfl

theorem newsArr_length (N idx : Nat) : (newsArr N idx).length = idx := by
  simp [newsArr]

theorem newsArr_getElem? (N idx j : Nat) :
    (newsArr N idx)[j]? = if j < idx then some (N + j) else none := by
  by_cases hj : j < idx
  · rw [newsArr, List.getElem?_map, List.getElem?_range hj]
    simp [hj]
  · rw [List.getElem?_eq_none (by rw [newsArr_length]; omega)]
    simp [hj]

theorem newsArr_mem {N idx x : Nat} (hx : x ∈ newsArr N idx) :
    N ≤ x ∧ x < N + idx := by
  rw [newsArr] at hx
  obtain ⟨a, ha, rfl⟩ := List.mem_map.mp hx
  rw [List.mem_range] at ha
  omega

theorem takeWhile_append_cons {α : Type} (p : α → Bool) (x : α) (l₂ : List α) :
    ∀ (l₁ : List α), (∀ a ∈ l₁, p a = true) → p x = false →
      (l₁ ++ x :: l₂).takeWhile p = l₁ := by
  intro l₁
  induction l₁ with
  | nil =>
    intro _ hx
    simp [List.takeWhile_cons, hx]
  | cons a l ih =>
    intro h1 hx
    rw [List.cons_append, List.takeWhile_cons, h1 a (List.mem_cons_self a l)]
    rw [ih (fun b hb => h1 b (List.mem_cons_of_mem a hb)) hx]
    simp

theorem dropWhile_append_cons {α : Type} (p : α → Bool) (x : α) (l₂ : List α) :
    ∀ (l₁ : List α), (∀ a ∈ l₁, p a = true) → p x = false →
      (l₁ ++ x :: l₂).dropWhile p = x :: l₂ := by
  intro l₁
  induction l₁ with
  | nil =>
    intro _ hx
    simp [List.dropWhile_cons, hx]
  | cons a l ih =>
    intro h1 hx
    rw [List.cons_append, List.dropWhile_cons, h1 a (List.mem_cons_self a l)]
    exact ih (fun b hb => h1 b (List.mem_cons_of_mem a hb)) hx

theorem ltOf_colsIns (cols : List (Int × List Nat)) (v : Int) (N idx : Nat) :
    ltOf (colsIns cols v N idx) v = ltOf cols v := by
  rw [colsIns, ltOf]
  exact takeWhile_append_cons _ _ _ (ltOf cols v)
    (fun a ha => by simpa using ltOf_lt ha) (by simp)

theorem geOf_colsIns (cols : List (Int × List Nat)) (v : Int) (N idx : Nat) :
    geOf (colsIns cols v N idx) v = (v, newsArr N idx) :: geOf cols v := by
  rw [colsIns, geOf]
  exact dropWhile_append_cons _ _ _ (ltOf cols v)
    (fun a ha => by simpa using ltOf_lt ha) (by simp)

theorem levelNodes_colsIns_high (cols : List (Int × List Nat)) (v : Int)
    (N idx j : Nat) (hj : idx ≤ j) :
    levelNodes (colsIns cols v N idx) j =
      levelNodes (ltOf cols v) j ++ levelNodes (geOf cols v) j := by
  rw [colsIns, levelNodes, List.filterMap_append, List.filterMap_cons]
  have : (newsArr N idx)[j]? = none := by
    rw [newsArr_getElem?]
    simp
    omega
  simp only [this]
  rfl

theorem levelNodes_colsIns_low (cols : List (Int × List Nat)) (v : Int)
    (N idx j : Nat) (hj : j < idx) :
    levelNodes (colsIns cols v N idx) j =
      levelNodes (ltOf cols v) j ++ (N + j) :: levelNodes (geOf cols v) j := by
  rw [colsIns, levelNodes, List.filterMap_append, List.filterMap_cons]
  have : (newsArr N idx)[j]? = some (N + j) := by
    rw [newsArr_getElem?]
    simp [hj]
  simp only [this]
  rfl

theorem flatMap_colsIns (cols : List (Int × List Nat)) (v : Int) (N idx : Nat) :
    (colsIns cols v N idx).flatMap (·.2) =
      (ltOf cols v).flatMap (·.2) ++ newsArr N idx ++ (geOf cols v).flatMap (·.2) := by
  rw [colsIns, List.flatMap_append, List.flatMap_cons, List.append_assoc]

theorem sorted_colsIns {cols : List (Int × List Nat)} {v : Int} (N idx : Nat)
    (hs : List.Pairwise (· ≤ ·) (cols.map (·.1))) :
    List.Pairwise (· ≤ ·) ((colsIns cols v N idx).map (·.1)) := by
  rw [colsIns, List.map_append, List.map_cons, List.pairwise_append]
  have hltsub : List.Sublist (ltOf cols v) cols := List.takeWhile_sublist _
  have hgesub : List.Sublist (geOf cols v) cols := List.dropWhile_sublist _
  refine ⟨List.Pairwise.sublist (List.Sublist.map _ hltsub) hs, ?_, ?_⟩
  · rw [List.pairwise_cons]
    refine ⟨?_, List.Pairwise.sublist (List.Sublist.map _ hgesub) hs⟩
    intro b hb
    obtain ⟨c, hc, rfl⟩ := List.mem_map.mp hb
    exact geOf_ge hs c hc
  · intro a ha b hb
    obtain ⟨c, hc, rfl⟩ := List.mem_map.mp ha
    have halt : c.1 < v := ltOf_lt hc
    rcases List.mem_cons.mp hb with rfl | hb'
    · omega
    · obtain ⟨c', hc', rfl⟩ := List.mem_map.mp hb'
      have := geOf_ge hs c' hc'
      omega

theorem map_fst_colsIns (cols : List (Int × List Nat)) (v : Int) (N M j k : Nat) :
    (colsIns cols v N j).map (·.1) = (colsIns cols v M k).map (·.1) := by
  rw [colsIns, colsIns, List.map_append, List.map_append, List.map_cons, List.map_cons]

/-- One iteration of `add`'s splicing loop: allocating the level-`idx`
copy and linking it after the tracked predecessor extends the new
entry's column by one level and preserves the invariant. -/
theorem splice_step {s_c : SkipState} {sents1 : List Nat} {cols : List (Int × List Nat)}
    {v : Int} {N idx : Nat}
    (h : ModelsC s_c ⟨sents1, colsIns cols v N idx⟩)
    (hidx : idx < sents1.length)
    (hlen : s_c.heap.length = N + idx) :
    ModelsC
      ⟨setRight (s_c.heap ++ [⟨some v, if idx = 0 then none else some (N + idx - 1),
          curD cols v idx⟩]) (preD sents1 cols v idx) (some s_c.heap.length), s_c.head⟩
      ⟨sents1, colsIns cols v N (idx + 1)⟩ := by
  have hboundC := live_boundedC h
  have hsd : sents1[idx]? = some (sentAt sents1 idx) := sentAt_eq hidx
  have hnd := h.2.2.2.2.2.1
  have hdisj : List.Disjoint sents1 ((colsIns cols v N idx).flatMap (·.2)) :=
    (List.nodup_append.mp hnd).2.2
  have hndflat : ((colsIns cols v N idx).flatMap (·.2)).Nodup :=
    (List.nodup_append.mp hnd).2.1
  -- the level-`idx` chain before splicing
  have hlev := h.2.2.2.1 idx hidx
  simp only [levelOkB, hsd] at hlev
  rcases hdn : s_c.heap[sentAt sents1 idx]? with _ | dn
  · rw [hdn] at hlev; simp at hlev
  · rw [hdn] at hlev
    rw [levelNodes_colsIns_high cols v N idx idx (le_refl idx)] at hlev
    -- memberships of the chain pieces
    have hxs_mem : ∀ x ∈ levelNodes (ltOf cols v) idx,
        x ∈ (colsIns cols v N idx).flatMap (·.2) := by
      intro x hx
      rw [flatMap_colsIns]
      exact List.mem_append.mpr (Or.inl (List.mem_append.mpr (Or.inl
        ((levelNodes_sublist idx (ltOf cols v)).mem hx))))
    have hys_mem : ∀ x ∈ levelNodes (geOf cols v) idx,
        x ∈ (colsIns cols v N idx).flatMap (·.2) := by
      intro x hx
      rw [flatMap_colsIns]
      exact List.mem_append.mpr (Or.inr ((levelNodes_sublist idx (geOf cols v)).mem hx))
    have hd_mem : sentAt sents1 idx ∈ sents1 := by
      obtain ⟨hlt, he⟩ := List.getElem?_eq_some.mp hsd
      exact he ▸ List.getElem_mem hlt
    -- the nodup and bound requirements of the splice
    have hndchain : (sentAt sents1 idx ::
        (levelNodes (ltOf cols v) idx ++ levelNodes (geOf cols v) idx)).Nodup := by
      rw [List.nodup_cons]
      constructor
      · intro hmem
        rcases List.mem_append.mp hmem with hx | hx
        · exact hdisj hd_mem (hxs_mem _ hx)
        · exact hdisj hd_mem (hys_mem _ hx)
      · have : levelNodes (ltOf cols v) idx ++ levelNodes (geOf cols v) idx =
            levelNodes (colsIns cols v N idx) idx :=
          (levelNodes_colsIns_high cols v N idx idx (le_refl idx)).symm
        rw [this]
        exact List.Nodup.sublist
          (List.Sublist.trans (levelNodes_sublist idx _) (List.Sublist.refl _)) hndflat
    have hbchain : ∀ i ∈ sentAt sents1 idx ::
        (levelNodes (ltOf cols v) idx ++ levelNodes (geOf cols v) idx),
        i < s_c.heap.length := by
      intro i hi
      rcases List.mem_cons.mp hi with rfl | hi'
      · exact hboundC _ (List.mem_append.mpr (Or.inl hd_mem))
      · rcases List.mem_append.mp hi' with hx | hx
        · exact hboundC _ (List.mem_append.mpr (Or.inr (hxs_mem _ hx)))
        · exact hboundC _ (List.mem_append.mpr (Or.inr (hys_mem _ hx)))
    -- perform the splice on the level-`idx` chain
    obtain ⟨dn2, hdn2, hdn2v, hdn2d, hchain2⟩ := chainB_splice s_c.heap (some v)
      (if idx = 0 then none else some (N + idx - 1))
      (levelNodes (ltOf cols v) idx) (sentAt sents1 idx) dn
      (levelNodes (geOf cols v) idx) hdn hlev hndchain hbchain
    -- abbreviations for the updated heap
    have hpre_eq : preD sents1 cols v idx =
        (levelNodes (ltOf cols v) idx).getLastD (sentAt sents1 idx) := rfl
    have hcur_eq : curD cols v idx = (levelNodes (geOf cols v) idx).head? := rfl
    -- `pre` is a live index of the old heap
    have hpre_live : preD sents1 cols v idx ∈
        sentAt sents1 idx ::
          (levelNodes (ltOf cols v) idx ++ levelNodes (geOf cols v) idx) := by
      rw [hpre_eq, getLastD_eq_getLast?_getD]
      rcases hl : (levelNodes (ltOf cols v) idx).getLast? with _ | g
      · simp
      · have := mem_of_getLast?_some hl
        simp only [Option.getD_some]
        exact List.mem_cons_of_mem _ (List.mem_append.mpr (Or.inl this))
    have hpre_lt : preD sents1 cols v idx < s_c.heap.length :=
      hbchain _ hpre_live
    -- agreement of the untouched cells
    have hag_node : ∀ i, i ≠ preD sents1 cols v idx → i < s_c.heap.length →
        (setRight (s_c.heap ++ [⟨some v, if idx = 0 then none else some (N + idx - 1),
          curD cols v idx⟩]) (preD sents1 cols v idx) (some s_c.heap.length))[i]? =
        s_c.heap[i]? := by
      intro i hne hi
      rw [getElem?_setRight_ne _ _ i _ (fun he => hne he.symm)]
      exact getElem?_append_left' _ _ i hi
    have hag_vd : ∀ i, i < s_c.heap.length →
        vdAt (setRight (s_c.heap ++ [⟨some v, if idx = 0 then none else some (N + idx - 1),
          curD cols v idx⟩]) (preD sents1 cols v idx) (some s_c.heap.length)) i =
        vdAt s_c.heap i := by
      intro i hi
      rw [vdAt_setRight, vdAt_append _ _ i hi]
    -- the new cell
    have hnew_cell : (setRight (s_c.heap ++ [⟨some v,
          if idx = 0 then none else some (N + idx - 1), curD cols v idx⟩])
          (preD sents1 cols v idx) (some s_c.heap.length))[s_c.heap.length]? =
        some ⟨some v, if idx = 0 then none else some (N + idx - 1), curD cols v idx⟩ := by
      rw [getElem?_setRight_ne _ _ _ _ (by omega)]
      rw [List.getElem?_append_right (le_refl s_c.heap.length)]
      simp
    -- pre is never a sentinel of another level nor on another level's chain
    have hpre_cases : preD sents1 cols v idx = sentAt sents1 idx ∨
        preD sents1 cols v idx ∈ levelNodes (colsIns cols v N idx) idx := by
      rcases List.mem_cons.mp hpre_live with he | hm
      · exact Or.inl he
      · right
        rw [levelNodes_colsIns_high cols v N idx idx (le_refl idx)]
        exact hm
    refine ⟨?_, ?_, ?_, ?_, ?_, ?_, ?_⟩
    · exact h.1
    · -- sentinel column: value/down view unchanged
      rw [columnOkB_vd s_c.heap _ none sents1 none ?_]
      · exact h.2.1
      · intro j hj
        exact hag_vd j (hboundC j (List.mem_append.mpr (Or.inl hj)))
    · -- entry columns
      intro c hc
      rw [colsIns] at hc
      rcases List.mem_append.mp hc with hclt | hcge
      · -- strictly-smaller entries: unchanged
        have hc' : c ∈ colsIns cols v N idx :=
          List.mem_append.mpr (Or.inl hclt)
        rw [columnOkB_vd s_c.heap _ (some c.1) c.2 none ?_]
        · exact h.2.2.1 c hc'
        · intro j hj
          exact hag_vd j (hboundC j (List.mem_append.mpr (Or.inr
            (mem_flatMap_of_col hc' hj))))
      · rcases List.mem_cons.mp hcge with rfl | hcge'
        · -- the new entry's column gains its level-`idx` copy
          have hmid : (v, newsArr N idx) ∈ colsIns cols v N idx :=
            List.mem_append.mpr (Or.inr (List.mem_cons_self _ _))
          have hold : columnOkB (setRight (s_c.heap ++ [⟨some v,
              if idx = 0 then none else some (N + idx - 1), curD cols v idx⟩])
              (preD sents1 cols v idx) (some s_c.heap.length))
              (some v) none (newsArr N idx) = true := by
            rw [columnOkB_vd s_c.heap _ (some v) (newsArr N idx) none ?_]
            · exact h.2.2.1 (v, newsArr N idx) hmid
            · intro j hj
              exact hag_vd j (hboundC j (List.mem_append.mpr (Or.inr
                (mem_flatMap_of_col hmid hj))))
          simp only
          rw [newsArr_succ]
          refine columnOkB_append_elem _ (some v) (newsArr N idx) none (N + idx)
            ⟨some v, if idx = 0 then none else some (N + idx - 1), curD cols v idx⟩
            hold (hlen ▸ hnew_cell) rfl ?_
          cases idx with
          | zero => rfl
          | succ idx' =>
            simp only [Nat.succ_ne_zero, if_false]
            rw [newsArr_succ, List.map_append, getLastD_append]
            simp [List.getLastD_cons]
        · -- at-or-above entries: unchanged
          have hc' : c ∈ colsIns cols v N idx :=
            List.mem_append.mpr (Or.inr (List.mem_cons_of_mem _ hcge'))
          rw [columnOkB_vd s_c.heap _ (some c.1) c.2 none ?_]
          · exact h.2.2.1 c hc'
          · intro j hj
            exact hag_vd j (hboundC j (List.mem_append.mpr (Or.inr
              (mem_flatMap_of_col hc' hj))))
    · -- level chains
      intro k hk
      rcases hsk : sents1[k]? with _ | sk
      · rw [List.getElem?_eq_getElem hk] at hsk
        exact absurd hsk (by simp)
      · by_cases hkidx : k = idx
        · -- the spliced level
          subst hkidx
          rw [hsk] at hsd
          have hskd : sk = sentAt sents1 k := Option.some_inj.mp hsd
          subst hskd
          simp only [levelOkB, hsk, hpre_eq, hcur_eq]
          rw [hlen] at hdn2 hchain2
          rw [hlen]
          simp only [hdn2]
          rw [levelNodes_colsIns_low cols v N (k + 1) k (by omega)]
          exact hchain2
        · -- untouched levels
          have hlevk := h.2.2.2.1 k hk
          simp only [levelOkB, hsk] at hlevk ⊢
          have hsk_mem : sk ∈ sents1 := by
            obtain ⟨hlt, he⟩ := List.getElem?_eq_some.mp hsk
            exact he ▸ List.getElem_mem hlt
          have hsk_ne : sk ≠ preD sents1 cols v idx := by
            rcases hpre_cases with he | hm
            · intro hcon
              rw [he] at hcon
              exact hkidx (getElem?_inj_of_nodup (List.nodup_append.mp hnd).1
                (hcon ▸ hsk) hsd)
            · intro hcon
              apply hdisj hsk_mem
              rw [hcon]
              exact (levelNodes_sublist idx (colsIns cols v N idx)).mem hm
          rcases hskn : s_c.heap[sk]? with _ | skn
          · rw [hskn] at hlevk; simp at hlevk
          · rw [hskn] at hlevk
            have hlevk' : chainB s_c.heap skn.right (levelNodes (colsIns cols v N idx) k)
                = true := hlevk
            have hsame : levelNodes (colsIns cols v N (idx + 1)) k =
                levelNodes (colsIns cols v N idx) k := by
              by_cases hkl : k < idx
              · rw [levelNodes_colsIns_low cols v N (idx + 1) k (by omega),
                  levelNodes_colsIns_low cols v N idx k hkl]
              · rw [levelNodes_colsIns_high cols v N (idx + 1) k (by omega),
                  levelNodes_colsIns_high cols v N idx k (by omega)]
            have hagn := hag_node sk hsk_ne
              (hboundC sk (List.mem_append.mpr (Or.inl hsk_mem)))
            simp only [hagn, hskn, hsame]
            rw [chainB_congr s_c.heap _ (levelNodes (colsIns cols v N idx) k) skn.right ?_]
            · exact hlevk'
            · intro j hj
              have hj_ne : j ≠ preD sents1 cols v idx := by
                rcases hpre_cases with he | hm
                · intro hcon
                  apply hdisj hd_mem
                  rw [← he, ← hcon]
                  exact (levelNodes_sublist k (colsIns cols v N idx)).mem hj
                · intro hcon
                  exact hkidx (level_placement hndflat hj (by rw [hcon]; exact hm))
              exact hag_node j hj_ne (hboundC j (List.mem_append.mpr (Or.inr
                ((levelNodes_sublist k _).mem hj))))
    · -- height bounds
      intro c hc
      rw [colsIns] at hc
      rcases List.mem_append.mp hc with hclt | hcge
      · exact h.2.2.2.2.1 c (List.mem_append.mpr (Or.inl hclt))
      · rcases List.mem_cons.mp hcge with rfl | hcge'
        · simp only [newsArr_length]
          omega
        · exact h.2.2.2.2.1 c (List.mem_append.mpr (Or.inr (List.mem_cons_of_mem _ hcge')))
    · -- nodup: the fresh index joins, everything else unchanged
      have hperm : List.Perm (sents1 ++ (colsIns cols v N (idx + 1)).flatMap (·.2))
          ((sents1 ++ (colsIns cols v N idx).flatMap (·.2)) ++ [N + idx]) := by
        have he1 : sents1 ++ (colsIns cols v N (idx + 1)).flatMap (·.2) =
            (sents1 ++ ((ltOf cols v).flatMap (·.2) ++ newsArr N idx)) ++
              ([N + idx] ++ (geOf cols v).flatMap (·.2)) := by
          rw [flatMap_colsIns, newsArr_succ]
          simp [List.append_assoc]
        have he2 : (sents1 ++ (colsIns cols v N idx).flatMap (·.2)) ++ [N + idx] =
            (sents1 ++ ((ltOf cols v).flatMap (·.2) ++ newsArr N idx)) ++
              ((geOf cols v).flatMap (·.2) ++ [N + idx]) := by
          rw [flatMap_colsIns]
          simp [List.append_assoc]
        rw [he1, he2]
        exact List.Perm.append_left _ List.perm_append_comm
      rw [List.Perm.nodup_iff hperm]
      rw [List.nodup_append]
      refine ⟨hnd, by simp, ?_⟩
      intro a ha hmem
      rw [List.mem_singleton] at hmem
      have := hboundC a ha
      omega
    · rw [show ((colsIns cols v N (idx + 1)).map (·.1)) =
          ((colsIns cols v N idx).map (·.1)) from map_fst_colsIns cols v N N (idx + 1) idx]
      exact h.2.2.2.2.2.2

theorem levelOkB_cols_eq {heap : List Node} {sents : List Nat}
    {cols cols' : List (Int × List Nat)} {k : Nat}
    (he : levelNodes cols' k = levelNodes cols k) :
    levelOkB heap sents cols' k = levelOkB heap sents cols k := by
  simp only [levelOkB, he]

theorem levelNodes_lt_ge (cols : List (Int × List Nat)) (v : Int) (k : Nat) :
    levelNodes cols k =
      levelNodes (ltOf cols v) k ++ levelNodes (geOf cols v) k := by
  conv_lhs => rw [← ltOf_append_geOf cols v]
  rw [levelNodes_append]

/-- Before the first splice iteration, inserting the empty new column
changes nothing structurally. -/
theorem colsIns_zero_modelsC {s : SkipState} {sents1 : List Nat}
    {cols : List (Int × List Nat)} (h : ModelsW s ⟨sents1, cols⟩) (v : Int) (N : Nat) :
    ModelsC s ⟨sents1, colsIns cols v N 0⟩ := by
  have hflat : (colsIns cols v N 0).flatMap (·.2) = cols.flatMap (·.2) := by
    rw [flatMap_colsIns, newsArr_zero, List.append_nil]
    conv_rhs => rw [← ltOf_append_geOf cols v]
    rw [List.flatMap_append]
  refine ⟨h.1, h.2.1, ?_, ?_, ?_, ?_, ?_⟩
  · intro c hc
    rw [colsIns] at hc
    rcases List.mem_append.mp hc with hclt | hcge
    · exact (h.2.2.1 c (mem_cols_of_mem_ltOf hclt)).2
    · rcases List.mem_cons.mp hcge with rfl | hcge'
      · rfl
      · exact (h.2.2.1 c (mem_cols_of_mem_geOf hcge')).2
  · intro k hk
    rw [@levelOkB_cols_eq _ _ cols _ _ ?_]
    · exact h.2.2.2.1 k hk
    · rw [levelNodes_colsIns_high cols v N 0 k (by omega)]
      exact (levelNodes_lt_ge cols v k).symm
  · intro c hc
    rw [colsIns] at hc
    rcases List.mem_append.mp hc with hclt | hcge
    · exact h.2.2.2.2.1 c (mem_cols_of_mem_ltOf hclt)
    · rcases List.mem_cons.mp hcge with rfl | hcge'
      · simp [newsArr_zero]
      · exact h.2.2.2.2.1 c (mem_cols_of_mem_geOf hcge')
  · rw [hflat]
    exact h.2.2.2.2.2.1
  · exact sorted_colsIns N 0 h.2.2.2.2.2.2

/-- The splicing loop, from any iteration to the end: it succeeds and
leaves the invariant with the fully threaded new column. -/
theorem spliceLoop_spec {sents1 : List Nat} {cols : List (Int × List Nat)} (v : Int)
    (N : Nat) (half : Nat) (hhalf : half ≤ sents1.length) :
    ∀ (rem idx : Nat) (s_c : SkipState), idx + rem = half →
      ModelsC s_c ⟨sents1, colsIns cols v N idx⟩ →
      s_c.heap.length = N + idx →
      ∃ s', spliceLoop v (expTracked sents1 cols v) s_c idx rem
          (if idx = 0 then none else some (N + idx - 1)) = some s' ∧
        ModelsC s' ⟨sents1, colsIns cols v N half⟩ ∧
        s'.heap.length = N + half := by
  intro rem
  induction rem with
  | zero =>
    intro idx s_c hsum h hlen
    have hidx : idx = half := by omega
    subst hidx
    exact ⟨s_c, rfl, h, by omega⟩
  | succ rem' ih =>
    intro idx s_c hsum h hlen
    have hidx : idx < sents1.length := by omega
    have hlook : List.lookup ((idx : Nat) : Int) (expTracked sents1 cols v) =
        some (preD sents1 cols v idx, curD cols v idx) := lookup_expTracked hidx
    have hstep := splice_step h hidx hlen
    have hlen' : (⟨setRight (s_c.heap ++ [⟨some v,
        if idx = 0 then none else some (N + idx - 1), curD cols v idx⟩])
        (preD sents1 cols v idx) (some s_c.heap.length), s_c.head⟩ :
        SkipState).heap.length = N + (idx + 1) := by
      simp only [setRight_length, List.length_append, List.length_singleton]
      omega
    obtain ⟨s', hrun, hmod, hlens⟩ := ih (idx + 1) _ (by omega) hstep hlen'
    refine ⟨s', ?_, hmod, hlens⟩
    simp only [spliceLoop, hlook]
    have hdconv : (if idx + 1 = 0 then (none : Option Nat) else some (N + (idx + 1) - 1))
        = some s_c.heap.length := by
      have harith : N + (idx + 1) - 1 = s_c.heap.length := by omega
      rw [if_neg (Nat.succ_ne_zero idx), harith]
    rw [hdconv] at hrun
    exact hrun

/-- The shape produced by `add`, given the heap size `N0` before the
call: grown sentinels, then the new column of `chosen + 1` nodes
between the smaller and the at-or-above entries. -/
def addShape (sh : Shape) (v : Int) (chosen N0 : Nat) : Shape :=
  ⟨grownSents sh.sents N0 (chosen + 1 - sh.sents.length),
   colsIns sh.cols v (N0 + (chosen + 1 - sh.sents.length)) (chosen + 1)⟩

theorem grownSents_length (sents : List Nat) (N g : Nat) :
    (grownSents sents N g).length = sents.length + g := by
  simp [grownSents]

theorem foldr_max_append : ∀ (x y : List Nat),
    (x ++ y).foldr max 0 = max (x.foldr max 0) (y.foldr max 0) := by
  intro x y
  induction x with
  | nil => simp
  | cons a x' ih =>
    simp only [List.cons_append, List.foldr_cons, ih]
    omega

theorem maxHt_append (a b : List (Int × List Nat)) :
    maxHt (a ++ b) = max (maxHt a) (maxHt b) := by
  rw [maxHt, maxHt, maxHt, List.map_append, foldr_max_append]

theorem maxHt_cons (c : Int × List Nat) (l : List (Int × List Nat)) :
    maxHt (c :: l) = max c.2.length (maxHt l) := rfl

theorem maxHt_colsIns (cols : List (Int × List Nat)) (v : Int) (N j : Nat) :
    maxHt (colsIns cols v N j) = max j (maxHt cols) := by
  rw [colsIns, maxHt_append, maxHt_cons]
  have : maxHt cols = max (maxHt (ltOf cols v)) (maxHt (geOf cols v)) := by
    conv_lhs => rw [← ltOf_append_geOf cols v]
    rw [maxHt_append]
  rw [this, newsArr_length]
  omega

/-- `add` at the shape level: it always succeeds, grows the head column
to cover the insertion height, and inserts a fully linked new column of
exactly `chosen + 1` nodes between the strictly-smaller entries and the
rest. -/
theorem add_spec {s : SkipState} {sh : Shape} (h : Models s sh) (v : Int) (chosen : Nat) :
    ∃ s', add s v chosen = some s' ∧ Models s' (addShape sh v chosen s.heap.length) ∧
      s'.heap.length =
        s.heap.length + (chosen + 1 - sh.sents.length) + (chosen + 1) := by
  obtain ⟨hW, hHeq⟩ := h
  have hg := growHead_spec (chosen + 1 - sh.sents.length) s sh hW
  have hW1 : ModelsW (if chosen + 1 ≤ sh.sents.length then s
      else growHead s (chosen + 1 - sh.sents.length))
      ⟨grownSents sh.sents s.heap.length (chosen + 1 - sh.sents.length), sh.cols⟩ := by
    by_cases hcase : chosen + 1 ≤ sh.sents.length
    · rw [if_pos hcase]
      rw [show chosen + 1 - sh.sents.length = 0 from by omega, grownSents_zero]
      exact hW
    · rw [if_neg hcase]
      exact hg.1
  have hlen1 : (if chosen + 1 ≤ sh.sents.length then s
      else growHead s (chosen + 1 - sh.sents.length)).heap.length =
      s.heap.length + (chosen + 1 - sh.sents.length) := by
    by_cases hcase : chosen + 1 ≤ sh.sents.length
    · rw [if_pos hcase]
      rw [show chosen + 1 - sh.sents.length = 0 from by omega]
      omega
    · rw [if_neg hcase]
      exact hg.2
  have hs1len : (grownSents sh.sents s.heap.length
      (chosen + 1 - sh.sents.length)).length =
      sh.sents.length + (chosen + 1 - sh.sents.length) := grownSents_length _ _ _
  have hhalf : chosen + 1 ≤ (grownSents sh.sents s.heap.length
      (chosen + 1 - sh.sents.length)).length := by
    rw [hs1len]
    have : 1 ≤ sh.sents.length := by
      rw [hHeq]
      omega
    omega
  have h0 := colsIns_zero_modelsC hW1 v
    ((if chosen + 1 ≤ sh.sents.length then s
      else growHead s (chosen + 1 - sh.sents.length)).heap.length)
  obtain ⟨s', hrun, hmod, hlens⟩ := spliceLoop_spec v
    ((if chosen + 1 ≤ sh.sents.length then s
      else growHead s (chosen + 1 - sh.sents.length)).heap.length)
    (chosen + 1) hhalf (chosen + 1) 0 _ (by omega) h0 rfl
  refine ⟨s', ?_, ?_, ?_⟩
  · rw [add]
    simp only [Nat.succ_pos, if_pos, height_spec hW]
    rw [traverse_spec hW1 v]
    simpa using hrun
  · refine ⟨modelsW_of_modelsC ?_ ?_, ?_⟩
    · rw [addShape]
      rw [← hlen1]
      exact hmod
    · intro c hc
      rw [addShape] at hc
      simp only at hc
      rw [colsIns] at hc
      rcases List.mem_append.mp hc with hclt | hcge
      · exact (hW.2.2.1 c (mem_cols_of_mem_ltOf hclt)).1
      · rcases List.mem_cons.mp hcge with rfl | hcge'
        · simp only
          intro hnil
          have := newsArr_length (s.heap.length + (chosen + 1 - sh.sents.length))
            (chosen + 1)
          rw [hnil] at this
          simp at this
        · exact (hW.2.2.1 c (mem_cols_of_mem_geOf hcge')).1
    · rw [addShape]
      simp only
      rw [grownSents_length, maxHt_colsIns]
      rw [hHeq] at *
      omega
  · rw [hlens, hlen1]

/-!  ## The abstract effect of `remove`'s unlink loop

`remove` unlinks, on every level, the first node at or above `v` when
it holds exactly `v`.  On the entry list this drops the first `≥ v`
entry entirely (it is the victim on every level it occupies up to the
point where a taller earlier-processed entry takes over) and truncates
each later entry of value `v` that becomes the first visible one at
some level.  `removedCols v ge m` computes the result, where `m` is the
running maximum height of the entries already passed. -/

def removedCols (v : Int) : List (Int × List Nat) → Nat → List (Int × List Nat)
  | [], _ => []
  | (w, ns) :: rest, m =>
    if w = v ∧ m < ns.length then
      (if m = 0 then removedCols v rest (max m ns.length)
       else (w, ns.take m) :: removedCols v rest (max m ns.length))
    else (w, ns) :: removedCols v rest (max m ns.length)

/-- The first entry still occupying level `j`. -/
def firstEnt (ge : List (Int × List Nat)) (j : Nat) : Option (Int × List Nat) :=
  ge.find? (fun c => decide (j < c.2.length))

theorem firstEnt_none_iff (ge : List (Int × List Nat)) (j : Nat) :
    firstEnt ge j = none ↔ levelNodes ge j = [] := by
  rw [firstEnt, List.find?_eq_none, levelNodes, List.filterMap_eq_nil_iff]
  constructor
  · intro h c hc
    have := h c hc
    rw [List.getElem?_eq_none]
    simpa using this
  · intro h c hc
    have := h c hc
    rw [List.getElem?_eq_none_iff] at this
    simpa using this

theorem firstEnt_some {ge : List (Int × List Nat)} {j : Nat} {c : Int × List Nat}
    (h : firstEnt ge j = some c) :
    c ∈ ge ∧ j < c.2.length ∧ (levelNodes ge j).head? = c.2[j]? := by
  induction ge with
  | nil => simp [firstEnt] at h
  | cons e rest ih =>
    by_cases hlen : j < e.2.length
    · rw [firstEnt, List.find?_cons_of_pos _ (by simpa using hlen)] at h
      cases h
      refine ⟨List.mem_cons_self _ _, hlen, ?_⟩
      rw [levelNodes, List.filterMap_cons, List.getElem?_eq_getElem hlen]
      simp
    · rw [firstEnt, List.find?_cons_of_neg _ (by simpa using hlen)] at h
      obtain ⟨hmem, hl, hh⟩ := ih h
      refine ⟨List.mem_cons_of_mem _ hmem, hl, ?_⟩
      rw [levelNodes, List.filterMap_cons, List.getElem?_eq_none (by omega)]
      exact hh

theorem firstEnt_cons_of_lt {e : Int × List Nat} {rest : List (Int × List Nat)}
    {j : Nat} (h : j < e.2.length) : firstEnt (e :: rest) j = some e := by
  rw [firstEnt, List.find?_cons_of_pos _ (by simpa using h)]

theorem firstEnt_cons_of_ge {e : Int × List Nat} {rest : List (Int × List Nat)}
    {j : Nat} (h : e.2.length ≤ j) : firstEnt (e :: rest) j = firstEnt rest j := by
  rw [firstEnt, List.find?_cons_of_neg _ (by simp; omega)]
  rfl

theorem levelNodes_cons_of_lt {e : Int × List Nat} {rest : List (Int × List Nat)}
    {j : Nat} (h : j < e.2.length) :
    levelNodes (e :: rest) j = e.2[j] :: levelNodes rest j := by
  rw [levelNodes, List.filterMap_cons, List.getElem?_eq_getElem h]
  rfl

theorem levelNodes_cons_of_ge {e : Int × List Nat} {rest : List (Int × List Nat)}
    {j : Nat} (h : e.2.length ≤ j) :
    levelNodes (e :: rest) j = levelNodes rest j := by
  rw [levelNodes, List.filterMap_cons, List.getElem?_eq_none (by omega)]
  rfl

/-- Below the running maximum `m`, `removedCols` leaves every level
untouched: the victim of those levels was an earlier entry. -/
theorem removedCols_level_low (v : Int) :
    ∀ (ge : List (Int × List Nat)) (m j : Nat), j < m →
      levelNodes (removedCols v ge m) j = levelNodes ge j := by
  intro ge
  induction ge with
  | nil => intro m j _; rfl
  | cons e rest ih =>
    intro m j hj
    rcases e with ⟨w, ns⟩
    rw [removedCols]
    by_cases hcond : w = v ∧ m < ns.length
    · rw [if_pos hcond]
      have hm0 : ¬ m = 0 := by omega
      rw [if_neg hm0]
      by_cases hlen : j < ns.length
      · rw [levelNodes_cons_of_lt (by simp; omega),
          levelNodes_cons_of_lt (e := (w, ns)) hlen]
        rw [ih (max m ns.length) j (by omega)]
        congr 1
        simp only
        rw [List.getElem_take]
      · rw [levelNodes_cons_of_ge (by simp; omega),
          levelNodes_cons_of_ge (e := (w, ns)) (by simpa using hlen)]
        exact ih (max m ns.length) j (by omega)
    · rw [if_neg hcond]
      by_cases hlen : j < ns.length
      · rw [levelNodes_cons_of_lt (e := (w, ns)) hlen,
          levelNodes_cons_of_lt (e := (w, ns)) hlen]
        rw [ih (max m ns.length) j (by omega)]
      · rw [levelNodes_cons_of_ge (e := (w, ns)) (by simpa using hlen),
          levelNodes_cons_of_ge (e := (w, ns)) (by simpa using hlen)]
        exact ih (max m ns.length) j (by omega)

/-- At a level whose first visible entry does not hold `v` (or no entry
at all), `removedCols` changes nothing. -/
theorem removedCols_level_skip (v : Int) :
    ∀ (ge : List (Int × List Nat)) (m j : Nat), m ≤ j →
      (∀ c, firstEnt ge j = some c → ¬ c.1 = v) →
      levelNodes (removedCols v ge m) j = levelNodes ge j := by
  intro ge
  induction ge with
  | nil => intro m j _ _; rfl
  | cons e rest ih =>
    intro m j hmj hfe
    rcases e with ⟨w, ns⟩
    rw [removedCols]
    by_cases hlen : j < ns.length
    · -- this entry is the first visible one: its value is not `v`
      have hw : ¬ w = v := by
        have := hfe (w, ns) (firstEnt_cons_of_lt hlen)
        simpa using this
      rw [if_neg (by simp [hw])]
      rw [levelNodes_cons_of_lt (e := (w, ns)) hlen,
        levelNodes_cons_of_lt (e := (w, ns)) hlen]
      rw [removedCols_level_low v rest (max m ns.length) j (by omega)]
    · have hfe' : ∀ c, firstEnt rest j = some c → ¬ c.1 = v := by
        intro c hc
        exact hfe c (by rw [firstEnt_cons_of_ge (show ns.length ≤ j by omega)]; exact hc)
      by_cases hcond : w = v ∧ m < ns.length
      · rw [if_pos hcond]
        by_cases hm0 : m = 0
        · rw [if_pos hm0]
          rw [levelNodes_cons_of_ge (e := (w, ns)) (show ns.length ≤ j by omega)]
          exact ih (max m ns.length) j (by omega) hfe'
        · rw [if_neg hm0]
          rw [levelNodes_cons_of_ge (by simp; omega),
            levelNodes_cons_of_ge (e := (w, ns)) (show ns.length ≤ j by omega)]
          exact ih (max m ns.length) j (by omega) hfe'
      · rw [if_neg hcond]
        rw [levelNodes_cons_of_ge (e := (w, ns)) (show ns.length ≤ j by omega),
          levelNodes_cons_of_ge (e := (w, ns)) (show ns.length ≤ j by omega)]
        exact ih (max m ns.length) j (by omega) hfe'

/-- At a level whose first visible entry holds exactly `v`, that
entry's node disappears from the level. -/
theorem removedCols_level_hit (v : Int) :
    ∀ (ge : List (Int × List Nat)) (m j : Nat), m ≤ j →
      ∀ c, firstEnt ge j = some c → c.1 = v →
      levelNodes (removedCols v ge m) j = (levelNodes ge j).tail := by
  intro ge
  induction ge with
  | nil => intro m j _ c hc; simp [firstEnt] at hc
  | cons e rest ih =>
    intro m j hmj c hc hcv
    rcases e with ⟨w, ns⟩
    rw [removedCols]
    by_cases hlen : j < ns.length
    · rw [firstEnt_cons_of_lt hlen] at hc
      cases hc
      have hw : w = v := hcv
      have hcond : w = v ∧ m < ns.length := ⟨hw, by omega⟩
      rw [if_pos hcond]
      rw [levelNodes_cons_of_lt (e := (w, ns)) hlen]
      by_cases hm0 : m = 0
      · rw [if_pos hm0]
        rw [removedCols_level_low v rest (max m ns.length) j (by omega)]
        rfl
      · rw [if_neg hm0]
        rw [levelNodes_cons_of_ge (by simp; omega)]
        rw [removedCols_level_low v rest (max m ns.length) j (by omega)]
        rfl
    · rw [firstEnt_cons_of_ge (show ns.length ≤ j by omega)] at hc
      have hstep := ih (max m ns.length) j ?_ c hc hcv
      · by_cases hcond : w = v ∧ m < ns.length
        · rw [if_pos hcond]
          by_cases hm0 : m = 0
          · rw [if_pos hm0]
            rw [levelNodes_cons_of_ge (e := (w, ns)) (show ns.length ≤ j by omega)]
            exact hstep
          · rw [if_neg hm0]
            rw [levelNodes_cons_of_ge (by simp; omega),
              levelNodes_cons_of_ge (e := (w, ns)) (show ns.length ≤ j by omega)]
            exact hstep
        · rw [if_neg hcond]
          rw [levelNodes_cons_of_ge (e := (w, ns)) (show ns.length ≤ j by omega),
            levelNodes_cons_of_ge (e := (w, ns)) (show ns.length ≤ j by omega)]
          exact hstep
      · omega

/-- Every output entry of `removedCols` is a value-preserving prefix of
an input entry. -/
theorem removedCols_entry (v : Int) :
    ∀ (ge : List (Int × List Nat)) (m : Nat) (c' : Int × List Nat),
      c' ∈ removedCols v ge m →
      ∃ c ∈ ge, c'.1 = c.1 ∧ c'.2.length ≤ c.2.length ∧
        ∀ (i x : Nat), c'.2[i]? = some x → c.2[i]? = some x := by
  intro ge
  induction ge with
  | nil => intro m c' hc'; simp [removedCols] at hc'
  | cons e rest ih =>
    intro m c' hc'
    rcases e with ⟨w, ns⟩
    rw [removedCols] at hc'
    by_cases hcond : w = v ∧ m < ns.length
    · rw [if_pos hcond] at hc'
      by_cases hm0 : m = 0
      · rw [if_pos hm0] at hc'
        obtain ⟨c, hc, h1, h2, h3⟩ := ih (max m ns.length) c' hc'
        exact ⟨c, List.mem_cons_of_mem _ hc, h1, h2, h3⟩
      · rw [if_neg hm0] at hc'
        rcases List.mem_cons.mp hc' with rfl | hc''
        · refine ⟨(w, ns), List.mem_cons_self _ _, rfl, by simp, ?_⟩
          intro i x hx
          simp only at hx ⊢
          rw [List.getElem?_take] at hx
          by_cases him : i < m
          · rw [if_pos him] at hx; exact hx
          · rw [if_neg him] at hx; exact absurd hx (by simp)
        · obtain ⟨c, hc, h1, h2, h3⟩ := ih (max m ns.length) c' hc''
          exact ⟨c, List.mem_cons_of_mem _ hc, h1, h2, h3⟩
    · rw [if_neg hcond] at hc'
      rcases List.mem_cons.mp hc' with rfl | hc''
      · exact ⟨(w, ns), List.mem_cons_self _ _, rfl, le_refl _, fun i x hx => hx⟩
      · obtain ⟨c, hc, h1, h2, h3⟩ := ih (max m ns.length) c' hc''
        exact ⟨c, List.mem_cons_of_mem _ hc, h1, h2, h3⟩

theorem removedCols_flat_sublist (v : Int) :
    ∀ (ge : List (Int × List Nat)) (m : Nat),
      List.Sublist ((removedCols v ge m).flatMap (·.2)) (ge.flatMap (·.2)) := by
  intro ge
  induction ge with
  | nil => intro m; simp [removedCols]
  | cons e rest ih =>
    intro m
    rcases e with ⟨w, ns⟩
    rw [removedCols]
    by_cases hcond : w = v ∧ m < ns.length
    · rw [if_pos hcond]
      by_cases hm0 : m = 0
      · rw [if_pos hm0]
        rw [List.flatMap_cons]
        exact List.Sublist.trans (ih (max m ns.length))
          (List.sublist_append_right ns _)
      · rw [if_neg hm0]
        rw [List.flatMap_cons, List.flatMap_cons]
        exact List.Sublist.append (List.take_sublist m ns) (ih (max m ns.length))
    · rw [if_neg hcond]
      rw [List.flatMap_cons, List.flatMap_cons]
      exact List.Sublist.append (List.Sublist.refl ns) (ih (max m ns.length))

theorem removedCols_values_sublist (v : Int) :
    ∀ (ge : List (Int × List Nat)) (m : Nat),
      List.Sublist ((removedCols v ge m).map (·.1)) (ge.map (·.1)) := by
  intro ge
  induction ge with
  | nil => intro m; simp [removedCols]
  | cons e rest ih =>
    intro m
    rcases e with ⟨w, ns⟩
    rw [removedCols]
    by_cases hcond : w = v ∧ m < ns.length
    · rw [if_pos hcond]
      by_cases hm0 : m = 0
      · rw [if_pos hm0]
        rw [List.map_cons]
        exact List.Sublist.trans (ih (max m ns.length)) (List.sublist_cons_self _ _)
      · rw [if_neg hm0]
        rw [List.map_cons, List.map_cons]
        exact List.Sublist.cons₂ _ (ih (max m ns.length))
    · rw [if_neg hcond]
      rw [List.map_cons, List.map_cons]
      exact List.Sublist.cons₂ _ (ih (max m ns.length))

/-- Once the running maximum is positive, no further entry is dropped
outright: the value list is preserved. -/
theorem removedCols_values_of_pos (v : Int) :
    ∀ (ge : List (Int × List Nat)) (m : Nat), 1 ≤ m →
      (removedCols v ge m).map (·.1) = ge.map (·.1) := by
  intro ge
  induction ge with
  | nil => intro m _; rfl
  | cons e rest ih =>
    intro m hm
    rcases e with ⟨w, ns⟩
    rw [removedCols]
    by_cases hcond : w = v ∧ m < ns.length
    · rw [if_pos hcond, if_neg (by omega)]
      rw [List.map_cons, List.map_cons, ih (max m ns.length) (by omega)]
    · rw [if_neg hcond]
      rw [List.map_cons, List.map_cons, ih (max m ns.length) (by omega)]

theorem removedCols_ne_nil (v : Int) :
    ∀ (ge : List (Int × List Nat)) (m : Nat), (∀ c ∈ ge, c.2 ≠ []) →
      ∀ c' ∈ removedCols v ge m, c'.2 ≠ [] := by
  intro ge
  induction ge with
  | nil => intro m _ c' hc'; simp [removedCols] at hc'
  | cons e rest ih =>
    intro m hne c' hc'
    rcases e with ⟨w, ns⟩
    rw [removedCols] at hc'
    have hrest : ∀ c ∈ rest, c.2 ≠ [] := fun c hc => hne c (List.mem_cons_of_mem _ hc)
    by_cases hcond : w = v ∧ m < ns.length
    · rw [if_pos hcond] at hc'
      by_cases hm0 : m = 0
      · rw [if_pos hm0] at hc'
        exact ih (max m ns.length) hrest c' hc'
      · rw [if_neg hm0] at hc'
        rcases List.mem_cons.mp hc' with rfl | hc''
        · simp only
          intro habs
          have : (ns.take m).length = 0 := by rw [habs]; rfl
          rw [List.length_take] at this
          omega
        · exact ih (max m ns.length) hrest c' hc''
    · rw [if_neg hcond] at hc'
      rcases List.mem_cons.mp hc' with rfl | hc''
      · exact hne (w, ns) (List.mem_cons_self _ _)
      · exact ih (max m ns.length) hrest c' hc''

theorem columnOkB_take (heap : List Node) (v : Option Int) :
    ∀ (ns : List Nat) (b : Option Nat) (m : Nat), columnOkB heap v b ns = true →
      columnOkB heap v b (ns.take m) = true := by
  intro ns
  induction ns with
  | nil => intro b m _; simp [columnOkB]
  | cons x rest ih =>
    intro b m hcol
    cases m with
    | zero => rfl
    | succ m' =>
      rw [List.take_succ_cons]
      simp only [columnOkB] at hcol ⊢
      rcases hx : heap[x]? with _ | nx
      · rw [hx] at hcol; simp at hcol
      · rw [hx] at hcol
        simp only [Bool.and_eq_true] at hcol ⊢
        exact ⟨hcol.1, ih (some x) m' hcol.2⟩

/-- The entry list after a successful `remove v`. -/
def removeCols (cols : List (Int × List Nat)) (v : Int) : List (Int × List Nat) :=
  ltOf cols v ++ removedCols v (geOf cols v) 0

theorem vdAt_transfer {h0 h1 : List Node} {i : Nat} (hag : vdAt h1 i = vdAt h0 i)
    {n0 : Node} (hn0 : h0[i]? = some n0) :
    ∃ n1, h1[i]? = some n1 ∧ n1.value = n0.value ∧ n1.down = n0.down := by
  rw [vdAt, vdAt, hn0] at hag
  rcases hn1 : h1[i]? with _ | n1
  · rw [hn1] at hag; simp at hag
  · rw [hn1] at hag
    simp at hag
    exact ⟨n1, rfl, hag.1, hag.2⟩

theorem levelOkB_agree {heap heap' : List Node} {sents : List Nat}
    {cols : List (Int × List Nat)} {k : Nat}
    (hag : ∀ q, (∃ sk, sents[k]? = some sk ∧ q = sk) ∨ q ∈ levelNodes cols k →
      heap'[q]? = heap[q]?) :
    levelOkB heap' sents cols k = levelOkB heap sents cols k := by
  rcases hsk : sents[k]? with _ | sk
  · unfold levelOkB
    rw [hsk]
  · simp only [levelOkB, hsk]
    rw [hag sk (Or.inl ⟨sk, hsk, rfl⟩)]
    rcases hn : heap[sk]? with _ | n
    · simp [hn]
    · simp only [hn]
      exact chainB_congr heap heap' (levelNodes cols k) n.right
        (fun q hq => hag q (Or.inr hq))

theorem removeCols_level_mem {cols : List (Int × List Nat)} {v : Int} {i x : Nat}
    (hx : x ∈ levelNodes (removeCols cols v) i) : x ∈ levelNodes cols i := by
  rw [removeCols, levelNodes_append] at hx
  rcases List.mem_append.mp hx with hlt | hrem
  · rw [levelNodes_lt_ge cols v i]
    exact List.mem_append.mpr (Or.inl hlt)
  · obtain ⟨c', hc', hci⟩ := mem_levelNodes.mp hrem
    obtain ⟨c, hc, _, _, htrans⟩ := removedCols_entry v (geOf cols v) 0 c' hc'
    rw [levelNodes_lt_ge cols v i]
    exact List.mem_append.mpr (Or.inr (mem_levelNodes.mpr ⟨c, hc, htrans i x hci⟩))

/-- The unlink loop of `remove`, from level `j` to the top: it
succeeds, and each level ends up holding the post-removal node list. -/
theorem unlinkLoop_spec {s0 : SkipState} {sents : List Nat}
    {cols : List (Int × List Nat)} (hW : ModelsW s0 ⟨sents, cols⟩) (v : Int) :
    ∀ (r j : Nat) (s_c : SkipState), j + r = sents.length →
      s_c.heap.length = s0.heap.length →
      s_c.head = s0.head →
      (∀ i, vdAt s_c.heap i = vdAt s0.heap i) →
      (∀ i, i < j → levelOkB s_c.heap sents (removeCols cols v) i = true) →
      (∀ i, j ≤ i → i < sents.length → levelOkB s_c.heap sents cols i = true) →
      ∃ s_f, unlinkLoop v s_c ((List.range' j r).map (fun (k : Nat) =>
          ((k : Int), preD sents cols v k, curD cols v k))) = some s_f ∧
        s_f.heap.length = s0.heap.length ∧ s_f.head = s0.head ∧
        (∀ i, vdAt s_f.heap i = vdAt s0.heap i) ∧
        (∀ i, i < sents.length → levelOkB s_f.heap sents (removeCols cols v) i = true) := by
  have hnd0 := hW.2.2.2.2.2.1
  have hdisj : List.Disjoint sents (cols.flatMap (·.2)) :=
    (List.nodup_append.mp hnd0).2.2
  have hndflat : (cols.flatMap (·.2)).Nodup := (List.nodup_append.mp hnd0).2.1
  intro r
  induction r with
  | zero =>
    intro j s_c hsum hlen hhead hvd hfin _
    exact ⟨s_c, rfl, hlen, hhead, hvd, fun i hi => hfin i (by omega)⟩
  | succ r' ih =>
    intro j s_c hsum hlen hhead hvd hfin horig
    have hj : j < sents.length := by omega
    rw [List.range'_succ, List.map_cons]
    rcases hcur : curD cols v j with _ | c
    · -- no successor at this level: nothing to unlink
      rw [unlinkLoop]
      have hlevj : levelOkB s_c.heap sents (removeCols cols v) j = true := by
        rw [@levelOkB_cols_eq _ _ cols _ _ ?_]
        · exact horig j (le_refl j) hj
        · rw [removeCols, levelNodes_append, levelNodes_lt_ge cols v j]
          congr 1
          have hge0 : levelNodes (geOf cols v) j = [] := by
            rw [curD] at hcur
            rcases hl : levelNodes (geOf cols v) j with _ | ⟨a, l⟩
            · rfl
            · rw [hl] at hcur; simp at hcur
          rw [hge0]
          rw [removedCols_level_skip v (geOf cols v) 0 j (by omega) ?_]
          · exact hge0
          · intro cc hcc
            exfalso
            have := (firstEnt_none_iff (geOf cols v) j).mpr hge0
            rw [this] at hcc
            exact absurd hcc (by simp)
      exact ih (j + 1) s_c (by omega) hlen hhead hvd
        (fun i hi => by
          by_cases hij : i < j
          · exact hfin i hij
          · have : i = j := by omega
            rw [this]
            exact hlevj)
        (fun i hi1 hi2 => horig i (by omega) hi2)
    · -- a successor exists: look at its entry
      rcases hfe : firstEnt (geOf cols v) j with _ | cEnt
      · exfalso
        rw [firstEnt_none_iff] at hfe
        rw [curD, hfe] at hcur
        exact absurd hcur (by simp)
      · obtain ⟨hcEge, hcElen, hcEhead⟩ := firstEnt_some hfe
        have hcEcols : cEnt ∈ cols := mem_cols_of_mem_geOf hcEge
        have hcidx : cEnt.2[j]? = some c := by
          rw [curD] at hcur
          rw [← hcEhead]
          exact hcur
        obtain ⟨n0, hn0, hn0v, _⟩ := col_node hW hcEcols j c hcidx
        obtain ⟨cn, hcn, hcnv, _⟩ := vdAt_transfer (hvd c) hn0
        rw [← hcnv] at hn0v
        simp only [unlinkLoop, hcn, hn0v]
        by_cases hwv : cEnt.1 = v
        · -- unlink the victim on this level
          rw [if_pos hwv]
          -- the level-`j` chain in the current heap
          have hlevj := horig j (le_refl j) hj
          have hsd : sents[j]? = some (sentAt sents j) := sentAt_eq hj
          simp only [levelOkB, hsd] at hlevj
          rcases hdn : s_c.heap[sentAt sents j]? with _ | dn
          · rw [hdn] at hlevj; simp at hlevj
          · rw [hdn] at hlevj
            have hgesplit : levelNodes (geOf cols v) j =
                c :: (levelNodes (geOf cols v) j).tail := by
              rcases hl : levelNodes (geOf cols v) j with _ | ⟨a, l⟩
              · rw [curD, hl] at hcur; simp at hcur
              · rw [curD, hl] at hcur
                simp only [List.head?_cons, Option.some_inj] at hcur
                rw [hcur]
                rfl
            have hchain : chainB s_c.heap dn.right (levelNodes (ltOf cols v) j ++
                c :: (levelNodes (geOf cols v) j).tail) = true := by
              rw [← hgesplit, ← levelNodes_lt_ge cols v j]
              exact hlevj
            have hd_mem : sentAt sents j ∈ sents := by
              obtain ⟨hlt, he⟩ := List.getElem?_eq_some.mp hsd
              exact he ▸ List.getElem_mem hlt
            have hlg : levelNodes cols j = levelNodes (ltOf cols v) j ++
                c :: (levelNodes (geOf cols v) j).tail := by
              conv_lhs => rw [levelNodes_lt_ge cols v j, hgesplit]
            have hndchain : (sentAt sents j :: (levelNodes (ltOf cols v) j ++
                c :: (levelNodes (geOf cols v) j).tail)).Nodup := by
              rw [List.nodup_cons]
              constructor
              · intro hmem
                apply hdisj hd_mem
                have hsmem : sentAt sents j ∈ levelNodes cols j := by
                  rw [hlg]
                  exact hmem
                exact (levelNodes_sublist j cols).mem hsmem
              · rw [← hlg]
                exact List.Nodup.sublist (levelNodes_sublist j cols) hndflat
            obtain ⟨dn2, hdn2, _, _, hchain2⟩ := chainB_unlink s_c.heap
              (levelNodes (ltOf cols v) j) (sentAt sents j) dn c cn
              ((levelNodes (geOf cols v) j).tail) hdn hchain hcn hndchain
            -- the predecessor is on level `j` only
            have hpre_cases : preD sents cols v j = sentAt sents j ∨
                preD sents cols v j ∈ levelNodes cols j := by
              rw [preD, getLastD_eq_getLast?_getD]
              rcases hl : (levelNodes (ltOf cols v) j).getLast? with _ | g
              · exact Or.inl rfl
              · right
                rw [levelNodes_lt_ge cols v j]
                exact List.mem_append.mpr (Or.inl (mem_of_getLast?_some hl))
            have hag : ∀ q, q ≠ preD sents cols v j →
                (setRight s_c.heap (preD sents cols v j) cn.right)[q]? =
                  s_c.heap[q]? := by
              intro q hq
              exact getElem?_setRight_ne _ _ q _ (fun he => hq he.symm)
            have hnot_other : ∀ (i : Nat), i ≠ j → ∀ q,
                (∃ sk, sents[i]? = some sk ∧ q = sk) ∨ q ∈ levelNodes cols i →
                q ≠ preD sents cols v j := by
              intro i hij q hq
              rcases hq with ⟨sk, hski, rfl⟩ | hqlev
              · rcases hpre_cases with he | hm
                · rw [he]
                  intro hcon
                  exact hij (getElem?_inj_of_nodup (List.nodup_append.mp hnd0).1
                    hski (hcon ▸ hsd))
                · intro hcon
                  apply hdisj (by
                    obtain ⟨hlt, he2⟩ := List.getElem?_eq_some.mp hski
                    exact he2 ▸ List.getElem_mem hlt)
                  rw [hcon]
                  exact (levelNodes_sublist j cols).mem hm
              · rcases hpre_cases with he | hm
                · intro hcon
                  apply hdisj hd_mem
                  rw [← he, ← hcon]
                  exact (levelNodes_sublist i cols).mem hqlev
                · intro hcon
                  exact hij (level_placement hndflat hqlev (by rw [hcon]; exact hm))
            -- the level `j` list after removal
            have hremj : levelNodes (removeCols cols v) j =
                levelNodes (ltOf cols v) j ++ (levelNodes (geOf cols v) j).tail := by
              rw [removeCols, levelNodes_append]
              congr 1
              exact removedCols_level_hit v (geOf cols v) 0 j (by omega) cEnt hfe hwv
            have hpre_eq : preD sents cols v j =
                (levelNodes (ltOf cols v) j).getLastD (sentAt sents j) := rfl
            have hlevj' : levelOkB (setRight s_c.heap (preD sents cols v j) cn.right)
                sents (removeCols cols v) j = true := by
              simp only [levelOkB, hsd, hpre_eq, hdn2, hremj]
              exact hchain2
            refine ih (j + 1) ⟨setRight s_c.heap (preD sents cols v j) cn.right,
              s_c.head⟩ (by omega) (by simpa [setRight_length] using hlen) hhead
              (fun i => by rw [vdAt_setRight]; exact hvd i) ?_ ?_
            · intro i hi
              by_cases hij : i < j
              · rw [levelOkB_agree (fun q hq => hag q
                  (hnot_other i (by omega) q (by
                    rcases hq with hq1 | hq2
                    · exact Or.inl hq1
                    · exact Or.inr (removeCols_level_mem hq2))))]
                exact hfin i hij
              · have : i = j := by omega
                rw [this]
                exact hlevj'
            · intro i hi1 hi2
              rw [levelOkB_agree (fun q hq => hag q (hnot_other i (by omega) q hq))]
              exact horig i (by omega) hi2
        · -- the first node at this level is above `v`: skip it
          rw [if_neg hwv]
          have hlevj : levelOkB s_c.heap sents (removeCols cols v) j = true := by
            rw [@levelOkB_cols_eq _ _ cols _ _ ?_]
            · exact horig j (le_refl j) hj
            · rw [removeCols, levelNodes_append, levelNodes_lt_ge cols v j]
              congr 1
              rw [removedCols_level_skip v (geOf cols v) 0 j (by omega) ?_]
              intro cc hcc
              rw [hfe] at hcc
              cases hcc
              exact hwv
          exact ih (j + 1) s_c (by omega) hlen hhead hvd
            (fun i hi => by
              by_cases hij : i < j
              · exact hfin i hij
              · have : i = j := by omega
                rw [this]
                exact hlevj)
            (fun i hi1 hi2 => horig i (by omega) hi2)

/-!  ## `cleanHead` and the full `remove` specification -/

theorem take_of_getElem?_imp {α : Type} {l' l : List α}
    (hag : ∀ (i : Nat) (x : α), l'[i]? = some x → l[i]? = some x) :
    l' = l.take l'.length := by
  apply List.ext_getElem?
  intro i
  rw [List.getElem?_take]
  by_cases hi : i < l'.length
  · rw [if_pos hi]
    have := hag i l'[i] (List.getElem?_eq_getElem hi)
    rw [this, List.getElem?_eq_getElem hi]
  · rw [if_neg hi, List.getElem?_eq_none]
    omega

theorem length_le_maxHt {cols : List (Int × List Nat)} {c : Int × List Nat}
    (hc : c ∈ cols) : c.2.length ≤ maxHt cols := by
  induction cols with
  | nil => simp at hc
  | cons e rest ih =>
    rw [maxHt_cons]
    rcases List.mem_cons.mp hc with rfl | hc'
    · omega
    · have := ih hc'
      omega

theorem maxHt_le {cols : List (Int × List Nat)} {m : Nat}
    (h : ∀ c ∈ cols, c.2.length ≤ m) : maxHt cols ≤ m := by
  induction cols with
  | nil => simp [maxHt]
  | cons e rest ih =>
    rw [maxHt_cons]
    have h1 := h e (List.mem_cons_self e rest)
    have h2 := ih (fun c hc => h c (List.mem_cons_of_mem e hc))
    omega

theorem removeCols_maxHt_le (cols : List (Int × List Nat)) (v : Int) :
    maxHt (removeCols cols v) ≤ maxHt cols := by
  apply maxHt_le
  intro c' hc'
  rw [removeCols] at hc'
  rcases List.mem_append.mp hc' with hlt | hrem
  · exact length_le_maxHt (mem_cols_of_mem_ltOf hlt)
  · obtain ⟨c, hc, _, hle, _⟩ := removedCols_entry v (geOf cols v) 0 c' hrem
    exact le_trans hle (length_le_maxHt (mem_cols_of_mem_geOf hc))

theorem levelNodes_ne_nil_of_lt_maxHt {cols : List (Int × List Nat)} {k : Nat}
    (hk : k < maxHt cols) : levelNodes cols k ≠ [] := by
  induction cols with
  | nil => rw [maxHt] at hk; simp at hk
  | cons c rest ih =>
    rw [maxHt_cons] at hk
    by_cases hc : k < c.2.length
    · have : c.2[k]? = some c.2[k] := List.getElem?_eq_getElem hc
      rw [levelNodes, List.filterMap_cons, this]
      simp
    · have hrest := ih (by omega)
      rw [levelNodes, List.filterMap_cons]
      have : c.2[k]? = none := by rw [List.getElem?_eq_none]; omega
      rw [this]
      exact hrest

/-- `clean_head` pops empty top sentinels: starting from the sentinel
of level `max 1 (maxHt rem) - 1 + d` it descends to the sentinel of
level `max 1 (maxHt rem) - 1` and stops there. -/
theorem cleanHead_spec {heap : List Node} {sents : List Nat}
    {rem : List (Int × List Nat)}
    (hsc : columnOkB heap none none sents = true)
    (hlev : ∀ i, i < sents.length → levelOkB heap sents rem i = true) :
    ∀ (d f : Nat), d < f → max 1 (maxHt rem) - 1 + d < sents.length →
      cleanHead heap f (sentAt sents (max 1 (maxHt rem) - 1 + d)) =
        some (sentAt sents (max 1 (maxHt rem) - 1)) := by
  intro d
  induction d with
  | zero =>
    intro f hf hk
    cases f with
    | zero => omega
    | succ f' =>
      obtain ⟨n, hn, _, hd⟩ := columnOkB_getElem heap none sents none hsc
        (max 1 (maxHt rem) - 1) (sentAt sents (max 1 (maxHt rem) - 1))
        (by simpa using sentAt_eq (by omega))
      by_cases h0 : max 1 (maxHt rem) - 1 = 0
      · rw [if_pos h0] at hd
        simp only [Nat.add_zero]
        rcases hr : n.right with _ | r <;>
          simp [cleanHead, hn, hd, hr]
      · -- the stop level is below the tallest column: its list is nonempty
        have hm : max 1 (maxHt rem) - 1 < maxHt rem := by omega
        have hne := levelNodes_ne_nil_of_lt_maxHt hm
        have hlevk := hlev (max 1 (maxHt rem) - 1) (by omega)
        simp only [levelOkB, sentAt_eq (show max 1 (maxHt rem) - 1 < sents.length
          by omega), hn] at hlevk
        rcases hl : levelNodes rem (max 1 (maxHt rem) - 1) with _ | ⟨a, l⟩
        · exact absurd hl hne
        · rw [hl] at hlevk
          rcases hr : n.right with _ | r
          · rw [hr] at hlevk; simp [chainB] at hlevk
          · simp [cleanHead, hn, hr]
  | succ d' ih =>
    intro f hf hk
    cases f with
    | zero => omega
    | succ f' =>
      have hkpos : 1 ≤ max 1 (maxHt rem) - 1 + (d' + 1) := by omega
      obtain ⟨n, hn, _, hd⟩ := columnOkB_getElem heap none sents none hsc
        (max 1 (maxHt rem) - 1 + (d' + 1)) (sentAt sents (max 1 (maxHt rem) - 1 + (d' + 1)))
        (by simpa using sentAt_eq hk)
      rw [if_neg (by omega)] at hd
      have hdown : n.down = some (sentAt sents (max 1 (maxHt rem) - 1 + d')) := by
        rw [hd]
        have : max 1 (maxHt rem) - 1 + (d' + 1) - 1 = max 1 (maxHt rem) - 1 + d' := by
          omega
        rw [this]
        exact sentAt_eq (by omega)
      -- the level is at or above every column: its list is empty
      have hempty : levelNodes rem (max 1 (maxHt rem) - 1 + (d' + 1)) = [] :=
        levelNodes_eq_nil (fun c hc => length_le_maxHt hc) (by omega)
      have hlevk := hlev (max 1 (maxHt rem) - 1 + (d' + 1)) hk
      simp only [levelOkB, sentAt_eq hk, hn, hempty] at hlevk
      have hr : n.right = none := by
        rcases hr : n.right with _ | r
        · rfl
        · rw [hr] at hlevk; simp [chainB] at hlevk
      simp only [cleanHead, hn, hr, hdown]
      exact ih f' (by omega) (by omega)

/-- When `v` is stored and the values are sorted, the first entry at or
above `v` holds exactly `v`. -/
theorem geOf_of_mem {cols : List (Int × List Nat)} {v : Int}
    (hsort : List.Pairwise (· ≤ ·) (cols.map (·.1)))
    (hmem : v ∈ cols.map (·.1)) :
    ∃ g rest, geOf cols v = g :: rest ∧ g.1 = v := by
  obtain ⟨c, hc, hcv⟩ := List.mem_map.mp hmem
  have hcge : c ∈ geOf cols v := by
    have hsplit : c ∈ ltOf cols v ++ geOf cols v := by
      rw [ltOf_append_geOf]; exact hc
    rcases List.mem_append.mp hsplit with hlt | hge
    · have := ltOf_lt hlt; omega
    · exact hge
  rcases hge : geOf cols v with _ | ⟨g, rest⟩
  · rw [hge] at hcge; simp at hcge
  · refine ⟨g, rest, rfl, ?_⟩
    have hvg : v ≤ g.1 := geOf_ge hsort g (hge ▸ List.mem_cons_self g rest)
    rw [hge] at hcge
    rcases List.mem_cons.mp hcge with rfl | hcrest
    · omega
    · have hsub : List.Sublist (geOf cols v) cols := List.dropWhile_sublist _
      have hpair : List.Pairwise (· ≤ ·) ((geOf cols v).map (·.1)) :=
        List.Pairwise.sublist (List.Sublist.map _ hsub) hsort
      rw [hge] at hpair
      simp only [List.map_cons, List.pairwise_cons] at hpair
      have := hpair.1 c.1 (List.mem_map.mpr ⟨c, hcrest, rfl⟩)
      omega

/-- At the value level a successful removal drops exactly the first
`≥ v` entry (which holds `v`): the value lists before and after split
around one copy of `v`. -/
theorem removeCols_values {cols : List (Int × List Nat)} {v : Int}
    (hsort : List.Pairwise (· ≤ ·) (cols.map (·.1)))
    (hne : ∀ c ∈ cols, c.2 ≠ [])
    (hmem : v ∈ cols.map (·.1)) :
    cols.map (·.1) =
      (ltOf cols v).map (·.1) ++ v :: ((geOf cols v).tail).map (·.1) ∧
    (removeCols cols v).map (·.1) =
      (ltOf cols v).map (·.1) ++ ((geOf cols v).tail).map (·.1) := by
  obtain ⟨⟨w, ns⟩, rest, hge, hgv⟩ := geOf_of_mem hsort hmem
  simp only at hgv
  constructor
  · conv_lhs => rw [← ltOf_append_geOf cols v]
    rw [List.map_append, hge]
    simp [hgv]
  · rw [removeCols, List.map_append, hge]
    congr 1
    have hnslen : 0 < ns.length := by
      have := hne (w, ns) (mem_cols_of_mem_geOf (hge ▸ List.mem_cons_self (w, ns) rest))
      simpa [List.length_pos] using this
    rw [removedCols]
    rw [if_pos ⟨hgv, hnslen⟩, if_pos rfl]
    rw [removedCols_values_of_pos v rest (max 0 ns.length) (by omega)]
    simp

/-- The shape after a successful `remove v`: the entries become
`removeCols`, the head column is cut back to the new tallest height. -/
def removeShape (sh : Shape) (v : Int) : Shape :=
  ⟨sh.sents.take (max 1 (maxHt (removeCols sh.cols v))), removeCols sh.cols v⟩

/-- `remove` of a stored value: it succeeds, the heap keeps its length
(nodes are unlinked, never deallocated in the model heap), and the
resulting structure is exactly the removal shape. -/
theorem remove_spec {s : SkipState} {sh : Shape} (h : Models s sh) {v : Int}
    (hmem : v ∈ sh.cols.map (·.1)) :
    ∃ s', remove s v = some (.ok s') ∧ Models s' (removeShape sh v) ∧
      s'.heap.length = s.heap.length := by
  obtain ⟨hW, hHeq⟩ := h
  rcases sh with ⟨sents, cols⟩
  simp only at hmem
  have hHeq' : sents.length = max 1 (maxHt cols) := hHeq
  have hlen0 : 0 < sents.length := sents_ne_nil hW
  have hL'le : max 1 (maxHt (removeCols cols v)) ≤ sents.length := by
    have := removeCols_maxHt_le cols v
    omega
  -- control flow down to the unlink loop
  have hl0 : List.lookup (0 : Int) (expTracked sents cols v) =
      some (preD sents cols v 0, curD cols v 0) := by
    have := @lookup_expTracked sents cols v 0 hlen0
    simpa using this
  obtain ⟨g, grest, hge, hgv⟩ := geOf_of_mem hW.2.2.2.2.2.2 hmem
  have hgcols : g ∈ cols := mem_cols_of_mem_geOf (hge ▸ List.mem_cons_self g grest)
  obtain ⟨i0, hi0, n0, hn0, hn0v, _⟩ := col_level0 hW hgcols
  have hcur0 : curD cols v 0 = some i0 := by
    rw [curD, hge]
    simp [levelNodes, List.filterMap_cons, hi0]
  rw [hgv] at hn0v
  -- the unlink loop
  obtain ⟨s1, hrun, hlen1, hhead1, hvd1, hlev1⟩ := unlinkLoop_spec hW v sents.length 0 s
    (by omega) rfl rfl (fun i => rfl) (fun i hi => absurd hi (by omega))
    (fun i _ hi2 => hW.2.2.2.1 i hi2)
  have hrun' : unlinkLoop v s (expTracked sents cols v) = some s1 := by
    rw [expTracked, List.range_eq_range']
    exact hrun
  -- head cleanup
  have hsc1 : columnOkB s1.heap none none sents = true := by
    rw [columnOkB_vd s.heap s1.heap none sents none (fun j _ => hvd1 j)]
    exact hW.2.1
  have hheadeq : sentAt sents (sents.length - 1) = s.head := by
    have h1 := hW.1
    rw [List.getLast?_eq_getElem?] at h1
    rw [sentAt, h1]
    rfl
  have hslen : sents.length ≤ s.heap.length := sents_length_le hW
  have hclean := cleanHead_spec hsc1 hlev1
    (sents.length - max 1 (maxHt (removeCols cols v))) (fuelOf s1)
    (by rw [fuelOf]; omega) (by omega)
  have hstart : max 1 (maxHt (removeCols cols v)) - 1 +
      (sents.length - max 1 (maxHt (removeCols cols v))) = sents.length - 1 := by
    omega
  rw [hstart, hheadeq, ← hhead1] at hclean
  refine ⟨⟨s1.heap, sentAt sents (max 1 (maxHt (removeCols cols v)) - 1)⟩, ?_, ?_, hlen1⟩
  · simp only [remove, traverse_spec hW v, hl0, hcur0, hn0, hn0v, if_pos rfl, hrun',
      hclean]
    simp
  · constructor
    · refine ⟨?_, ?_, ?_, ?_, ?_, ?_, ?_⟩
      · -- the top remaining sentinel is the new head
        dsimp only [removeShape]
        rw [List.getLast?_eq_getElem?, List.length_take,
          show min (max 1 (maxHt (removeCols cols v))) sents.length =
            max 1 (maxHt (removeCols cols v)) from by omega,
          List.getElem?_take, if_pos (by omega)]
        exact sentAt_eq (by omega)
      · -- the truncated sentinel column
        dsimp only [removeShape]
        exact columnOkB_take s1.heap none sents none _ hsc1
      · -- the surviving columns
        dsimp only [removeShape]
        intro c' hc'
        rw [removeCols] at hc'
        rcases List.mem_append.mp hc' with hlt | hrem
        · have hcc := mem_cols_of_mem_ltOf hlt
          refine ⟨(hW.2.2.1 c' hcc).1, ?_⟩
          rw [columnOkB_vd s.heap s1.heap _ _ _ (fun j _ => hvd1 j)]
          exact (hW.2.2.1 c' hcc).2
        · obtain ⟨c, hcge, hval, _, hidx⟩ := removedCols_entry v (geOf cols v) 0 c' hrem
          have hcc := mem_cols_of_mem_geOf hcge
          refine ⟨removedCols_ne_nil v (geOf cols v) 0
            (fun c hc => (hW.2.2.1 c (mem_cols_of_mem_geOf hc)).1) c' hrem, ?_⟩
          have htake : c'.2 = c.2.take c'.2.length := take_of_getElem?_imp hidx
          rw [columnOkB_vd s.heap s1.heap _ _ _ (fun j _ => hvd1 j), hval, htake]
          exact columnOkB_take s.heap (some c.1) c.2 none c'.2.length (hW.2.2.1 c hcc).2
      · -- every remaining level is anchored
        dsimp only [removeShape]
        intro k hk
        rw [List.length_take] at hk
        have hkL : k < max 1 (maxHt (removeCols cols v)) := by omega
        have heq : levelOkB s1.heap (sents.take (max 1 (maxHt (removeCols cols v))))
            (removeCols cols v) k = levelOkB s1.heap sents (removeCols cols v) k := by
          simp only [levelOkB, List.getElem?_take, if_pos hkL]
        rw [heq]
        exact hlev1 k (by omega)
      · -- height bounds
        dsimp only [removeShape]
        intro c' hc'
        rw [List.length_take,
          show min (max 1 (maxHt (removeCols cols v))) sents.length =
            max 1 (maxHt (removeCols cols v)) from by omega]
        have := length_le_maxHt hc'
        omega
      · -- no sharing among live nodes
        dsimp only [removeShape]
        have hsub : List.Sublist
            (sents.take (max 1 (maxHt (removeCols cols v))) ++
              (removeCols cols v).flatMap (·.2))
            (sents ++ cols.flatMap (·.2)) := by
          apply List.Sublist.append (List.take_sublist _ _)
          rw [removeCols, List.flatMap_append]
          conv_rhs => rw [← ltOf_append_geOf cols v, List.flatMap_append]
          exact List.Sublist.append (List.Sublist.refl _)
            (removedCols_flat_sublist v _ 0)
        exact List.Nodup.sublist hsub hW.2.2.2.2.2.1
      · -- values stay sorted
        dsimp only [removeShape]
        have hsub : List.Sublist ((removeCols cols v).map (·.1)) (cols.map (·.1)) := by
          rw [removeCols, List.map_append]
          conv_rhs => rw [← ltOf_append_geOf cols v, List.map_append]
          exact List.Sublist.append (List.Sublist.refl _)
            (removedCols_values_sublist v _ 0)
        exact List.Pairwise.sublist hsub hW.2.2.2.2.2.2
    · -- tightness of the head column
      dsimp only [removeShape]
      rw [List.length_take]
      omega

/-- `remove` of an absent value: the guard fires and the call reports
`notFound` without touching the state. -/
theorem remove_fail {s : SkipState} {sh : Shape} (h : ModelsW s sh) {v : Int}
    (hnot : v ∉ sh.cols.map (·.1)) :
    remove s v = some .notFound := by
  have hlen0 : 0 < sh.sents.length := sents_ne_nil h
  have hl0 : List.lookup (0 : Int) (expTracked sh.sents sh.cols v) =
      some (preD sh.sents sh.cols v 0, curD sh.cols v 0) := by
    have := @lookup_expTracked sh.sents sh.cols v 0 hlen0
    simpa using this
  rcases hcur : curD sh.cols v 0 with _ | i0
  · simp only [remove, traverse_spec h v, hl0, hcur]
  · rcases hge : geOf sh.cols v with _ | ⟨g, grest⟩
    · rw [curD, hge] at hcur
      simp [levelNodes] at hcur
    · have hgcols : g ∈ sh.cols :=
        mem_cols_of_mem_geOf (hge ▸ List.mem_cons_self g grest)
      obtain ⟨i, hi, n, hn, hv, _⟩ := col_level0 h hgcols
      have hieq : i0 = i := by
        rw [curD, hge] at hcur
        simp [levelNodes, List.filterMap_cons, hi] at hcur
        omega
      subst hieq
      have hne : g.1 ≠ v := by
        intro he
        exact hnot (List.mem_map.mpr ⟨g, hgcols, he⟩)
      simp only [remove, traverse_spec h v, hl0, hcur, hn, hv, if_neg hne]

/-!  ## Runs from the empty container -/

/-- The default-constructed container: one sentinel, no entries. -/
theorem models_empty : Models emptyState ⟨[0], []⟩ := by
  refine ⟨⟨by decide, by decide, ?_, ?_, ?_, by decide, ?_⟩, by decide⟩
  · intro c hc; simp at hc
  · intro k hk
    simp only [List.length_cons, List.length_nil] at hk
    have hk0 : k = 0 := by omega
    subst hk0
    decide
  · intro c hc; simp at hc
  · simp

/-- The value list after an insertion: one more copy of `v`, placed
between the strictly-smaller entries and the rest. -/
theorem colsIns_values (cols : List (Int × List Nat)) (v : Int) (N j : Nat) :
    (colsIns cols v N j).map (·.1) =
      (ltOf cols v).map (·.1) ++ v :: (geOf cols v).map (·.1) := by
  rw [colsIns, List.map_append, List.map_cons]

/-- Moving one element across a multiset sum of list coercions. -/
theorem coe_add_middle (A B R : List Int) (v : Int) :
    ((A ++ v :: B : List Int) : Multiset Int) + (R : Multiset Int) =
      ((A ++ B : List Int) : Multiset Int) + ((v :: R : List Int) : Multiset Int) := by
  rw [← Multiset.coe_add, ← Multiset.coe_add]
  refine Multiset.coe_eq_coe.mpr ?_
  rw [List.append_assoc, List.cons_append, List.append_assoc]
  exact List.Perm.append_left A (List.perm_middle.symm)

/-- Bookkeeping along any run: the driver never aborts, the final state
is modeled, and the stored values plus the success log account exactly
for all added values, as multisets. -/
theorem runLog_models :
    ∀ (ops : List Op) (s : SkipState) (sh : Shape), Models s sh →
      ∃ s' log sh', runLog s ops = some (s', log) ∧ Models s' sh' ∧
        ((sh'.cols.map (·.1) : List Int) : Multiset Int) + (log : Multiset Int) =
          ((sh.cols.map (·.1) : List Int) : Multiset Int) +
            (addedValues ops : Multiset Int) := by
  intro ops
  induction ops with
  | nil =>
    intro s sh h
    exact ⟨s, [], sh, rfl, h, by simp [addedValues]⟩
  | cons op rest ih =>
    intro s sh h
    cases op with
    | add v ch =>
      obtain ⟨s1, hadd, h1, _⟩ := add_spec h v ch
      obtain ⟨s', log, sh', hrun, h', hacc⟩ := ih s1 _ h1
      refine ⟨s', log, sh', ?_, h', ?_⟩
      · simp only [runLog, hadd, hrun]
      · rw [hacc]
        have hv : ((addShape sh v ch s.heap.length).cols.map (·.1) : List Int) =
            (ltOf sh.cols v).map (·.1) ++ v :: (geOf sh.cols v).map (·.1) := by
          rw [addShape]
          exact colsIns_values sh.cols v _ _
        have hsplit : (sh.cols.map (·.1) : List Int) =
            (ltOf sh.cols v).map (·.1) ++ (geOf sh.cols v).map (·.1) := by
          conv_lhs => rw [← ltOf_append_geOf sh.cols v]
          rw [List.map_append]
        rw [hv, hsplit]
        simp only [addedValues]
        exact coe_add_middle _ _ _ v
    | remove v =>
      by_cases hvmem : v ∈ sh.cols.map (·.1)
      · obtain ⟨s1, hrem, h1, _⟩ := remove_spec h hvmem
        obtain ⟨s', log, sh', hrun, h', hacc⟩ := ih s1 _ h1
        refine ⟨s', v :: log, sh', ?_, h', ?_⟩
        · simp only [runLog, hrem, hrun]
          rfl
        · obtain ⟨hsplitL, hsplitR⟩ := removeCols_values h.1.2.2.2.2.2.2
            (fun c hc => (h.1.2.2.1 c hc).1) hvmem
          have hrm2 : ((removeShape sh v).cols.map (·.1) : List Int) =
              (ltOf sh.cols v).map (·.1) ++ ((geOf sh.cols v).tail).map (·.1) := by
            dsimp only [removeShape]
            exact hsplitR
          rw [hrm2] at hacc
          rw [hsplitL]
          simp only [addedValues]
          rw [coe_add_middle]
          simp only [← Multiset.cons_coe, Multiset.add_cons]
          rw [hacc]
      · obtain ⟨s', log, sh', hrun, h', hacc⟩ := ih s sh h
        refine ⟨s', log, sh', ?_, h', ?_⟩
        · simp only [runLog, remove_fail h.1 hvmem, hrun]
        · rw [hacc]
          simp only [addedValues]

/-- Every reachable state is modeled by some shape. -/
theorem reachable_models {s : SkipState} (h : reachable s) : ∃ sh, Models s sh := by
  obtain ⟨ops, hops⟩ := h
  obtain ⟨s', log, sh', hrun, h', _⟩ := runLog_models ops emptyState ⟨[0], []⟩ models_empty
  rw [run, hrun] at hops
  simp at hops
  rw [← hops]
  exact ⟨sh', h'⟩

/-!  ## The claims -/

/-- C1: for every finite sequence of `add`/`remove` calls from an empty
list and every assignment of per-insertion heights, `iter` yields a
non-decreasing sequence whose multiset is all added values minus the
values of the removes that succeeded. -/
theorem C1_iter_sorted_multiset (ops : List Op) :
    ∃ (s : SkipState) (log out : List Int),
      runLog emptyState ops = some (s, log) ∧ iter s = some out ∧
      List.Pairwise (· ≤ ·) out ∧
      (out : Multiset Int) + (log : Multiset Int) = (addedValues ops : Multiset Int) := by
  obtain ⟨s, log, sh, hrun, hmod, hacc⟩ :=
    runLog_models ops emptyState ⟨[0], []⟩ models_empty
  refine ⟨s, log, sh.cols.map (·.1), hrun, iter_spec hmod.1,
    hmod.1.2.2.2.2.2.2, ?_⟩
  simpa using hacc

/-- C2: after any reachable prefix of operations (in particular any
interleaving of adds), `find v` answers `true` immediately after an
`add v` call, whatever height was chosen for it. -/
theorem C2_find_after_add {s : SkipState} (hreach : reachable s) (v : Int)
    (chosen : Nat) {s' : SkipState} (hadd : add s v chosen = some s') :
    find s' v = some true := by
  obtain ⟨sh, hmod⟩ := reachable_models hreach
  obtain ⟨s'', hadd', hmod', _⟩ := add_spec hmod v chosen
  rw [hadd] at hadd'
  have he : s' = s'' := by injection hadd'
  subst he
  have hvmem : v ∈ (addShape sh v chosen s.heap.length).cols.map (·.1) := by
    simp only [addShape]
    rw [colsIns_values]
    exact List.mem_append.mpr (Or.inr (List.mem_cons_self _ _))
  rw [find_spec hmod'.1 v]
  simp [hvmem]

/-- C4: on a reachable state, removing a value the container does not
hold (`find` answers `false`) fails with `notFound`, and the run
continues from the untouched state. -/
theorem C4_remove_absent_notFound {s : SkipState} (hreach : reachable s) {v : Int}
    (hfind : find s v = some false) :
    remove s v = some RemoveResult.notFound ∧ run s [Op.remove v] = some s := by
  obtain ⟨sh, hmod⟩ := reachable_models hreach
  have hnot : v ∉ sh.cols.map (·.1) := by
    intro hmem
    rw [find_spec hmod.1 v] at hfind
    simp [hmem] at hfind
  have hrf := remove_fail hmod.1 hnot
  refine ⟨hrf, ?_⟩
  rw [run]
  simp only [runLog, hrf]
  rfl

/-- C7: on every reachable state the descent of `traverse` ends with a
null descent pointer and level counter exactly `-1`, so both internal
`check` assertions pass for every `traverse` call. -/
theorem C7_traverse_asserts {s : SkipState} (hreach : reachable s) (v : Int) :
    ∃ tr, traverseRaw s v = some (tr, -1) ∧ traverse s v = some tr := by
  obtain ⟨sh, hmod⟩ := reachable_models hreach
  exact ⟨expTracked sh.sents sh.cols v, traverseRaw_spec hmod.1 v,
    traverse_spec hmod.1 v⟩

/-- C8: `height` is defined and at least `1` on every reachable state:
the head column always keeps at least one sentinel. -/
theorem C8_height_ge_one {s : SkipState} (hreach : reachable s) :
    ∃ ht, height s = some ht ∧ 1 ≤ ht := by
  obtain ⟨sh, hmod⟩ := reachable_models hreach
  exact ⟨sh.sents.length, height_spec hmod.1, sents_ne_nil hmod.1⟩

theorem ofSeqAux_run : ∀ (items : List (Int × Nat)) (s : SkipState),
    ofSeqAux s items = run s (items.map (fun p => Op.add p.1 p.2)) := by
  intro items
  induction items with
  | nil => intro s; rfl
  | cons p rest ih =>
    intro s
    rcases p with ⟨v, ch⟩
    simp only [List.map_cons]
    rcases hadd : add s v ch with _ | s'
    · simp only [ofSeqAux, run, runLog, hadd]
      rfl
    · simp only [ofSeqAux, run, runLog, hadd]
      rw [ih s', run]

/-- C9: constructing from a finite sequence of values is the same as
starting empty and calling `add` once per element in order (with the
same injected height choices), duplicates preserved. -/
theorem C9_construct_refines (items : List (Int × Nat)) :
    ofSeq items = run emptyState (items.map (fun p => Op.add p.1 p.2)) :=
  ofSeqAux_run items emptyState

/-!  ## Same-value counting (claim C3) -/

theorem ltOf_geOf_replicate {cols : List (Int × List Nat)} {v : Int} {n : Nat}
    (h : cols.map (·.1) = List.replicate n v) :
    ltOf cols v = [] ∧ geOf cols v = cols := by
  cases cols with
  | nil => exact ⟨rfl, rfl⟩
  | cons c rest =>
    cases n with
    | zero => simp at h
    | succ m =>
      rw [List.map_cons, List.replicate_succ] at h
      injection h with h1 h2
      constructor
      · rw [ltOf]
        simp [List.takeWhile_cons, h1]
      · rw [geOf]
        simp [List.dropWhile_cons, h1]

theorem tail_map_replicate {cols : List (Int × List Nat)} {v : Int} {m : Nat}
    (h : cols.map (·.1) = List.replicate (m + 1) v) :
    (cols.tail).map (·.1) = List.replicate m v := by
  cases cols with
  | nil => simp at h
  | cons c rest =>
    rw [List.map_cons, List.replicate_succ] at h
    injection h with h1 h2

/-- Adding the same value `k` times (any heights) leaves exactly `k`
copies of it as the stored entries. -/
theorem ofSeqAux_replicate (v : Int) : ∀ (chs : List Nat) (s : SkipState) (sh : Shape)
    (n : Nat), Models s sh → sh.cols.map (·.1) = List.replicate n v →
    ∃ s' sh', ofSeqAux s (chs.map (fun c => (v, c))) = some s' ∧ Models s' sh' ∧
      sh'.cols.map (·.1) = List.replicate (n + chs.length) v := by
  intro chs
  induction chs with
  | nil =>
    intro s sh n h hrep
    exact ⟨s, sh, rfl, h, by simpa using hrep⟩
  | cons ch rest ih =>
    intro s sh n h hrep
    obtain ⟨s1, hadd, h1, _⟩ := add_spec h v ch
    have hvals : (addShape sh v ch s.heap.length).cols.map (·.1) =
        List.replicate (n + 1) v := by
      simp only [addShape]
      rw [colsIns_values, (ltOf_geOf_replicate hrep).1, (ltOf_geOf_replicate hrep).2]
      simp [hrep, List.replicate_succ]
    obtain ⟨s', sh', hrun, h', hrep'⟩ := ih s1 _ (n + 1) h1 hvals
    refine ⟨s', sh', ?_, h', ?_⟩
    · simp only [List.map_cons, ofSeqAux, hadd]
      exact hrun
    · rw [hrep']
      congr 1
      simp only [List.length_cons]
      omega

/-- Removing the same value `j ≤ n` times from `n` stored copies: every
call succeeds and `n - j` copies remain. -/
theorem removeN_replicate (v : Int) : ∀ (j : Nat) (s : SkipState) (sh : Shape)
    (n : Nat), Models s sh → sh.cols.map (·.1) = List.replicate n v → j ≤ n →
    ∃ s' sh', removeN v s j = some s' ∧ Models s' sh' ∧
      sh'.cols.map (·.1) = List.replicate (n - j) v := by
  intro j
  induction j with
  | zero =>
    intro s sh n h hrep _
    exact ⟨s, sh, rfl, h, by simpa using hrep⟩
  | succ j' ih =>
    intro s sh n h hrep hle
    cases n with
    | zero => omega
    | succ m =>
      have hvmem : v ∈ sh.cols.map (·.1) := by
        rw [hrep]
        simp [List.mem_replicate]
      obtain ⟨s1, hrem, h1, _⟩ := remove_spec h hvmem
      have hvals : (removeShape sh v).cols.map (·.1) = List.replicate m v := by
        dsimp only [removeShape]
        have hsp := (removeCols_values h.1.2.2.2.2.2.2
          (fun c hc => (h.1.2.2.1 c hc).1) hvmem).2
        rw [hsp, (ltOf_geOf_replicate hrep).1, (ltOf_geOf_replicate hrep).2]
        simpa using tail_map_replicate hrep
      obtain ⟨s', sh', hrun, h', hrep'⟩ := ih s1 _ m h1 hvals (by omega)
      refine ⟨s', sh', ?_, h', ?_⟩
      · simp only [removeN, hrem]
        exact hrun
      · rw [hrep']
        congr 1
        omega

/-- C3: after `k` adds of `v` (any per-insertion heights) and `j ≤ k`
removes of `v` — all of which succeed — `find v` answers exactly
`j < k`, the next `k - j` removes still succeed, and the following
remove (the `(k-j+1)`-th) fails with `notFound`. -/
theorem C3_same_value_counting (v : Int) (k j : Nat) (chs : List Nat)
    (hlen : chs.length = k) (hjk : j ≤ k) :
    ∃ s, ofSeq (chs.map (fun c => (v, c))) = some s ∧
    ∃ s', removeN v s j = some s' ∧ find s' v = some (decide (j < k)) ∧
    ∃ s'', removeN v s' (k - j) = some s'' ∧
      remove s'' v = some RemoveResult.notFound := by
  obtain ⟨s, sh, hofs, hmod, hrep⟩ := ofSeqAux_replicate v chs emptyState ⟨[0], []⟩ 0
    models_empty (by simp)
  rw [hlen] at hrep
  have hrep' : sh.cols.map (·.1) = List.replicate k v := by simpa using hrep
  obtain ⟨s', sh', hrem1, hmod', hrepj⟩ := removeN_replicate v j s sh k hmod hrep' hjk
  have hfind : find s' v = some (decide (j < k)) := by
    rw [find_spec hmod'.1 v]
    congr 1
    rw [decide_eq_decide, hrepj]
    simp [List.mem_replicate]
    omega
  obtain ⟨s'', sh'', hrem2, hmod'', hrep0⟩ :=
    removeN_replicate v (k - j) s' sh' (k - j) hmod' hrepj (le_refl _)
  have hnot : v ∉ sh''.cols.map (·.1) := by
    have hempty : sh''.cols.map (·.1) = [] := by simpa using hrep0
    rw [hempty]
    simp
  exact ⟨s, hofs, s', hrem1, hfind, s'', hrem2, remove_fail hmod''.1 hnot⟩

/-!  ## Pointer reachability (claim C10) -/

theorem mem_of_getElem? {α : Type} {l : List α} {a : α} {i : Nat}
    (h : l[i]? = some a) : a ∈ l := by
  obtain ⟨hlt, he⟩ := List.getElem?_eq_some.mp h
  exact he ▸ List.getElem_mem hlt

/-- Every node reachable from the head along `down` and `right` links
is live: a head-column sentinel or an entry copy. -/
theorem reach_classify {s : SkipState} {sh : Shape} (h : ModelsW s sh) :
    ∀ i, ReachNode s i → i ∈ sh.sents ∨ i ∈ sh.cols.flatMap (·.2) := by
  intro i hi
  induction hi with
  | head => exact Or.inl (mem_of_getLast?_some h.1)
  | @down p q n hp hn hd ih =>
    rcases ih with hps | hpf
    · obtain ⟨k, hk⟩ := List.getElem?_of_mem hps
      obtain ⟨np, hnp, _, hdp⟩ := sent_node h k _ hk
      rw [hn] at hnp
      cases hnp
      by_cases hk0 : k = 0
      · rw [if_pos hk0] at hdp
        rw [hdp] at hd
        simp at hd
      · rw [if_neg hk0] at hdp
        rw [hdp] at hd
        exact Or.inl (mem_of_getElem? hd)
    · obtain ⟨c, hc, hpc⟩ := List.mem_flatMap.mp hpf
      obtain ⟨k, hk⟩ := List.getElem?_of_mem hpc
      obtain ⟨np, hnp, _, hdp⟩ := col_node h hc k _ hk
      rw [hn] at hnp
      cases hnp
      by_cases hk0 : k = 0
      · rw [if_pos hk0] at hdp
        rw [hdp] at hd
        simp at hd
      · rw [if_neg hk0] at hdp
        rw [hdp] at hd
        exact Or.inr (List.mem_flatMap.mpr ⟨c, hc, mem_of_getElem? hd⟩)
  | @right p q n hp hn hr ih =>
    rcases ih with hps | hpf
    · -- a sentinel's `right` goes into its level's node list
      obtain ⟨k, hk⟩ := List.getElem?_of_mem hps
      have hklen : k < sh.sents.length := lt_length_of_getElem? hk
      have hlev := h.2.2.2.1 k hklen
      simp only [levelOkB, hk, hn] at hlev
      rcases hl : levelNodes sh.cols k with _ | ⟨a, l⟩
      · rw [hl, hr] at hlev
        simp [chainB] at hlev
      · rw [hl, hr] at hlev
        obtain ⟨rfl, _, _, _⟩ := (chainB_some_cons s.heap q a l).mp hlev
        exact Or.inr ((levelNodes_sublist k sh.cols).mem (hl ▸ List.mem_cons_self _ l))
    · -- an entry copy's `right` stays inside its level's node list
      obtain ⟨c, hc, hpc⟩ := List.mem_flatMap.mp hpf
      obtain ⟨k, hk⟩ := List.getElem?_of_mem hpc
      have hplev : p ∈ levelNodes sh.cols k := mem_levelNodes.mpr ⟨c, hc, hk⟩
      have hklen : k < sh.sents.length := by
        have h1 := h.2.2.2.2.1 c hc
        have h2 := lt_length_of_getElem? hk
        omega
      have hlev := h.2.2.2.1 k hklen
      simp only [levelOkB, sentAt_eq hklen] at hlev
      rcases hsn : s.heap[sentAt sh.sents k]? with _ | n0
      · rw [hsn] at hlev
        simp at hlev
      · rw [hsn] at hlev
        rcases chainB_right_closed s.heap (levelNodes sh.cols k) n0.right hlev
          p hplev n hn with hnone | ⟨q', hq', he⟩
        · rw [hr] at hnone
          simp at hnone
        · rw [hr] at he
          injection he with he'
          have hqm : q ∈ levelNodes sh.cols k := by
            rw [he']
            exact hq'
          exact Or.inr ((levelNodes_sublist k sh.cols).mem hqm)

/-- A `right` link from any reachable node lands on an entry copy,
never on a sentinel. -/
theorem right_into_cols {s : SkipState} {sh : Shape} (h : ModelsW s sh)
    {p q : Nat} {n : Node} (hp : ReachNode s p) (hn : s.heap[p]? = some n)
    (hr : n.right = some q) : q ∈ sh.cols.flatMap (·.2) := by
  rcases reach_classify h p hp with hps | hpf
  · obtain ⟨k, hk⟩ := List.getElem?_of_mem hps
    have hklen : k < sh.sents.length := lt_length_of_getElem? hk
    have hlev := h.2.2.2.1 k hklen
    simp only [levelOkB, hk, hn] at hlev
    rcases hl : levelNodes sh.cols k with _ | ⟨a, l⟩
    · rw [hl, hr] at hlev
      simp [chainB] at hlev
    · rw [hl, hr] at hlev
      obtain ⟨rfl, _, _, _⟩ := (chainB_some_cons s.heap q a l).mp hlev
      exact (levelNodes_sublist k sh.cols).mem (hl ▸ List.mem_cons_self _ l)
  · obtain ⟨c, hc, hpc⟩ := List.mem_flatMap.mp hpf
    obtain ⟨k, hk⟩ := List.getElem?_of_mem hpc
    have hplev : p ∈ levelNodes sh.cols k := mem_levelNodes.mpr ⟨c, hc, hk⟩
    have hklen : k < sh.sents.length := by
      have h1 := h.2.2.2.2.1 c hc
      have h2 := lt_length_of_getElem? hk
      omega
    have hlev := h.2.2.2.1 k hklen
    simp only [levelOkB, sentAt_eq hklen] at hlev
    rcases hsn : s.heap[sentAt sh.sents k]? with _ | n0
    · rw [hsn] at hlev
      simp at hlev
    · rw [hsn] at hlev
      rcases chainB_right_closed s.heap (levelNodes sh.cols k) n0.right hlev
        p hplev n hn with hnone | ⟨q', hq', he⟩
      · rw [hr] at hnone
        simp at hnone
      · rw [hr] at he
        injection he with he'
        have hqm : q ∈ levelNodes sh.cols k := by
          rw [he']
          exact hq'
        exact (levelNodes_sublist k sh.cols).mem hqm

/-- C10: on every reachable state, any node reached through a `right`
link exists and carries a value — sentinels only ever sit in the head
column — so the unguarded `*cur->value` dereferences done by `find`,
`remove`, `traverse` and `iter` never read an empty optional. -/
theorem C10_right_links_valued {s : SkipState} (hreach : reachable s) :
    ∀ (p q : Nat) (n : Node), ReachNode s p → s.heap[p]? = some n →
      n.right = some q → ∃ m, s.heap[q]? = some m ∧ ∃ w, m.value = some w := by
  obtain ⟨sh, hmod⟩ := reachable_models hreach
  intro p q n hp hn hr
  have hqf : q ∈ sh.cols.flatMap (·.2) := right_into_cols hmod.1 hp hn hr
  obtain ⟨c, hc, hqc⟩ := List.mem_flatMap.mp hqf
  obtain ⟨k, hk⟩ := List.getElem?_of_mem hqc
  obtain ⟨m, hm, hmv, _⟩ := col_node hmod.1 hc k q hk
  exact ⟨m, hm, c.1, hmv⟩

/-!  ## Duplicate order and removal pairing (claims C5 and C6) -/

/-- C5 counterexample: two `add 5` calls, both of height 1.  The second
insertion allocates its node at index 2 (the old heap size reported in
the first component), yet level 0 then reads `[2, 1]`: the new node
sits BEFORE the first insertion's equal-valued node (both hold `5`, as
the heap values show), refuting after-all-equals stable order. -/
theorem C5_counterexample :
    ((add emptyState 5 0).bind fun s1 => (add s1 5 0).bind fun s2 =>
      (level0Idxs s2).map fun l => (s1.heap.length, l, s2.heap.map Node.value)) =
      some (2, [2, 1], [none, some 5, some 5]) := by
  rfl

/-- C5 amended: the inserted column lands after all strictly smaller
entries and before every entry at or above `v` — in particular BEFORE
existing equal values (newest duplicate first, LIFO, not stable
insertion order). -/
theorem C5_amended_insert_before_equals {s : SkipState} (hreach : reachable s)
    (v : Int) (chosen : Nat) :
    ∃ sh s', Models s sh ∧ add s v chosen = some s' ∧
      Models s' ⟨grownSents sh.sents s.heap.length (chosen + 1 - sh.sents.length),
        ltOf sh.cols v ++
          (v, newsArr (s.heap.length + (chosen + 1 - sh.sents.length)) (chosen + 1)) ::
            geOf sh.cols v⟩ := by
  obtain ⟨sh, hmod⟩ := reachable_models hreach
  obtain ⟨s', hadd, hmod', _⟩ := add_spec hmod v chosen
  exact ⟨sh, s', hmod, hadd, hmod'⟩

/-- C6 counterexample: `add 5` at height 2 (nodes 2 and 3), then
`add 5` at height 1 (node 4), then one `remove 5`.  The remove unlinks
node 4 (the whole second insertion) AND node 3 (the first insertion's
level-1 copy), leaving node 2 — the first insertion survives only
partially, so one remove destroyed copies of two different insertions
and left a vertical chain truncated. -/
theorem C6_counterexample :
    ((add emptyState 5 1).bind fun s1 => (add s1 5 0).bind fun s2 =>
      (remove s2 5).bind fun r => match r with
        | .ok s3 => (level0Idxs s3).map fun l =>
            (s1.heap.length, l, s3.head, s3.heap.map Node.value)
        | .notFound => none) =
      some (4, [2], 0, [none, none, some 5, some 5, some 5]) := by
  rfl

/-- C6 amended: a successful `remove v` deletes exactly one copy of `v`
from the stored value multiset; the per-level unlinked nodes, however,
may belong to several different insertions of `v`, so vertical chains
are not destroyed as a unit. -/
theorem C6_amended_one_value_removed {s : SkipState} (hreach : reachable s)
    {v : Int} {s' : SkipState} (hrem : remove s v = some (RemoveResult.ok s')) :
    ∃ out out', iter s = some out ∧ iter s' = some out' ∧
      (out : Multiset Int) = v ::ₘ (out' : Multiset Int) := by
  obtain ⟨sh, hmod⟩ := reachable_models hreach
  by_cases hvmem : v ∈ sh.cols.map (·.1)
  · obtain ⟨s'', hrem', hmod', _⟩ := remove_spec hmod hvmem
    rw [hrem] at hrem'
    have he : s' = s'' := RemoveResult.ok.inj (Option.some.inj hrem')
    subst he
    obtain ⟨hsplitL, hsplitR⟩ := removeCols_values hmod.1.2.2.2.2.2.2
      (fun c hc => (hmod.1.2.2.1 c hc).1) hvmem
    refine ⟨sh.cols.map (·.1), (removeShape sh v).cols.map (·.1),
      iter_spec hmod.1, iter_spec hmod'.1, ?_⟩
    have hrm2 : ((removeShape sh v).cols.map (·.1) : List Int) =
        (ltOf sh.cols v).map (·.1) ++ ((geOf sh.cols v).tail).map (·.1) := hsplitR
    rw [hsplitL, hrm2, Multiset.cons_coe]
    exact Multiset.coe_eq_coe.mpr List.perm_middle
  · rw [remove_fail hmod.1 hvmem] at hrem
    exact absurd hrem (by simp)

/-!  ## Witnesses -/

theorem C2_find_after_add_witness :
    find ⟨[⟨none, none, some 1⟩, ⟨some 5, none, none⟩], 0⟩ 5 = some true :=
  C2_find_after_add (s := emptyState) ⟨[], rfl⟩ 5 0 rfl

theorem C3_same_value_counting_witness :
    ([0, 0] : List Nat).length = 2 ∧ 1 ≤ 2 ∧
    (∃ s, ofSeq (([0, 0] : List Nat).map (fun c => ((5 : Int), c))) = some s ∧
     ∃ s', removeN 5 s 1 = some s' ∧ find s' 5 = some (decide (1 < 2)) ∧
     ∃ s'', removeN 5 s' (2 - 1) = some s'' ∧
       remove s'' 5 = some RemoveResult.notFound) :=
  ⟨rfl, by decide, C3_same_value_counting 5 2 1 [0, 0] rfl (by decide)⟩

theorem C4_remove_absent_notFound_witness :
    remove emptyState 7 = some RemoveResult.notFound ∧
      run emptyState [Op.remove 7] = some emptyState :=
  C4_remove_absent_notFound ⟨[], rfl⟩ (v := 7) rfl

theorem C5_amended_witness :
    ∃ sh s', Models emptyState sh ∧ add emptyState 5 0 = some s' ∧
      Models s' ⟨grownSents sh.sents emptyState.heap.length (0 + 1 - sh.sents.length),
        ltOf sh.cols 5 ++
          (5, newsArr (emptyState.heap.length + (0 + 1 - sh.sents.length)) (0 + 1)) ::
            geOf sh.cols 5⟩ :=
  C5_amended_insert_before_equals ⟨[], rfl⟩ 5 0

theorem C6_amended_witness :
    ∃ out out',
      iter (⟨[⟨none, none, some 1⟩, ⟨some 5, none, none⟩], 0⟩ : SkipState) = some out ∧
      iter (⟨[⟨none, none, none⟩, ⟨some 5, none, none⟩], 0⟩ : SkipState) = some out' ∧
      (out : Multiset Int) = 5 ::ₘ (out' : Multiset Int) :=
  C6_amended_one_value_removed ⟨[Op.add 5 0], rfl⟩ rfl

theorem C7_traverse_asserts_witness :
    ∃ tr, traverseRaw emptyState 0 = some (tr, -1) ∧ traverse emptyState 0 = some tr :=
  C7_traverse_asserts ⟨[], rfl⟩ 0

theorem C8_height_ge_one_witness :
    ∃ ht, height emptyState = some ht ∧ 1 ≤ ht :=
  C8_height_ge_one ⟨[], rfl⟩

theorem C10_right_links_valued_witness :
    ∃ m, (⟨[⟨none, none, some 1⟩, ⟨some 5, none, none⟩], 0⟩ : SkipState).heap[1]? =
        some m ∧ ∃ w, m.value = some w :=
  C10_right_links_valued (s := ⟨[⟨none, none, some 1⟩, ⟨some 5, none, none⟩], 0⟩)
    ⟨[Op.add 5 0], rfl⟩ 0 1 ⟨none, none, some 1⟩ ReachNode.head rfl rfl

end Skip
